import Mathlib

/-!
Shallow embedding of the Aira Control Tower backend
(`src/backend_deprecated/server.py`): the FSM registry, the simulated
response resolver, the call session engine (`webcall_start`,
`webcall_input`, `webcall_end`) and the prompt version store
(`create_prompt`, `update_prompt`, `mark_prompt_weak`, `publish_prompt`).

Modelling conventions:
* MongoDB documents become entries of an association list `List (Nat × _)`
  keyed by identifier; `find_one` is first-match lookup, `update_one`
  with an id filter maps over the matching entries, `insert_one` appends.
* `uuid.uuid4()` identifiers are modelled by a fresh-counter (`nextId`)
  on the store: a counter produces exactly the freshness that distinct
  uuids provide.  The random per-turn uuid on `CallTurn` is not
  observable by any endpoint and is omitted.
* `datetime.now(timezone.utc)` instants are modelled as `Nat` values
  supplied by the caller of each operation ("now").  The two `now()`
  calls inside one request are modelled as the same instant.
* HTTP errors become the typed errors the spec names: 404 "not found"
  is `ApiError.notFound`; 400 for an operation against a wrong status is
  `ApiError.invalidState`; 400 for a bad caller-supplied value
  (`mark-weak` with blank replacement text) is `ApiError.validationError`.
-/

namespace Aira

/-- FSM states, from the `FSMState` enum of the source. -/
inductive FSMState where
  | greeting
  | language_selection
  | qualification
  | objection_handling
  | demo_offer
  | confirmation
  | closing
  | transfer
  | fallback
deriving DecidableEq

/-- Languages, from the `Language` enum of the source. -/
inductive Language where
  | en
  | es
  | fr
  | de
deriving DecidableEq

/-- Call statuses, from the `CallStatus` enum of the source. -/
inductive CallStatus where
  | active
  | completed
  | failed
  | transferred
deriving DecidableEq

/-- Exit reasons, from the `ExitReason` enum of the source. -/
inductive ExitReason where
  | completed
  | user_hangup
  | timeout
  | error
  | transferred
  | no_response
deriving DecidableEq

/-- Prompt statuses, from the `PromptStatus` enum of the source. -/
inductive PromptStatus where
  | active
  | draft
  | weak
  | archived
deriving DecidableEq

/-- Typed caller-facing errors (HTTP 404 / 400, see file header). -/
inductive ApiError where
  | notFound
  | invalidState
  | validationError
deriving DecidableEq

/-- ASCII lowercasing of one character; embeds Python `str.lower()` on
the ASCII inputs the endpoints receive. -/
def lowerChar (c : Char) : Char :=
  if 'A' ≤ c ∧ c ≤ 'Z' then Char.ofNat (c.toNat + 32) else c

/-- `pat` is a prefix of `s` (executable, on character lists). -/
def listStarts : List Char → List Char → Bool
  | [], _ => true
  | _ :: _, [] => false
  | p :: ps, c :: cs => p == c && listStarts ps cs

/-- Python's substring containment `pat in s`, on character lists. -/
def containsSub (pat : List Char) : List Char → Bool
  | [] => listStarts pat []
  | c :: cs => listStarts pat (c :: cs) || containsSub pat cs

/-- `user_input.lower()` as a character list. -/
def utterLower (u : String) : List Char :=
  u.toList.map lowerChar

/-- Python's `s.strip()` being empty: the string is empty or all
whitespace. -/
def pyBlank (s : String) : Bool :=
  s.toList.all fun c => c.isWhitespace

/-- The `responses` table of `get_simulated_response`: for the states
present in the table, the localized (text, next state, is final) triple,
with the `.get(language, english)` fallback folded in.  States absent
from the Python dict return `none`. -/
def respTable (s : FSMState) : Option (Language → String × FSMState × Bool) :=
  match s with
  | .greeting => some fun l =>
      match l with
      | .es => ("¡Hola! Soy Aira, tu asistente de IA. ¿Cómo puedo ayudarte hoy?",
          FSMState.qualification, false)
      | _ => ("Hello! I\x27m Aira, your AI assistant. How can I help you today? Would you like to learn about our product?",
          FSMState.qualification, false)
  | .qualification => some fun l =>
      match l with
      | .es => ("¡Genial! Déjame hacerte algunas preguntas. ¿En qué industria está tu empresa?",
          FSMState.qualification, false)
      | _ => ("Great! Let me ask you a few questions. What industry is your company in?",
          FSMState.qualification, false)
  | .demo_offer => some fun l =>
      match l with
      | .es => ("Basándome en lo que me has contado, creo que nuestra solución sería perfecta para ti. ¿Te gustaría programar una demostración?",
          FSMState.confirmation, false)
      | _ => ("Based on what you\x27ve told me, I think our solution would be perfect for you. Would you like to schedule a demo?",
          FSMState.confirmation, false)
  | .confirmation => some fun l =>
      match l with
      | .es => ("¡Perfecto! He programado tu demostración. Recibirás un correo de confirmación pronto. ¿Hay algo más en lo que pueda ayudarte?",
          FSMState.closing, false)
      | _ => ("Perfect! I\x27ve scheduled your demo. You\x27ll receive a confirmation email shortly. Is there anything else I can help you with?",
          FSMState.closing, false)
  | .closing => some fun l =>
      match l with
      | .es => ("¡Gracias por tu tiempo hoy! ¡Que tengas un excelente día!",
          FSMState.closing, true)
      | _ => ("Thank you for your time today! Have a great day!",
          FSMState.closing, true)
  | .objection_handling => some fun l =>
      match l with
      | .es => ("Entiendo tu preocupación. Déjame abordar eso. Nuestra solución ofrece precios flexibles y un período de prueba gratuito.",
          FSMState.demo_offer, false)
      | _ => ("I understand your concern. Let me address that. Our solution offers flexible pricing and a free trial period.",
          FSMState.demo_offer, false)
  | _ => none

/-- The scanned keyword "demo". -/
def kwDemo : List Char := "demo".toList

/-- The scanned keyword "yes". -/
def kwYes : List Char := "yes".toList

/-- The scanned keyword "interested". -/
def kwInterested : List Char := "interested".toList

/-- The scanned keyword "no". -/
def kwNo : List Char := "no".toList

/-- The scanned keyword "not interested". -/
def kwNotInterested : List Char := "not interested".toList

/-- The scanned keyword "concern". -/
def kwConcern : List Char := "concern".toList

/-- The scanned keyword "expensive". -/
def kwExpensive : List Char := "expensive".toList

/-- The scanned keyword "but". -/
def kwBut : List Char := "but".toList

/-- The scanned keyword "company". -/
def kwCompany : List Char := "company".toList

/-- The scanned keyword "industry". -/
def kwIndustry : List Char := "industry".toList

/-- `get_simulated_response(state, user_input, language)`: keyword
intent detection (affirmative branch first, as in the source), then the
default-successor fallback from the table, then text lookup on the
chosen next state with the generic fallback line. -/
def get_simulated_response (state : FSMState) (user_input : String)
    (language : Language) : String × FSMState × Bool :=
  let user_lower := utterLower user_input
  let next_state :=
    if containsSub kwDemo user_lower || containsSub kwYes user_lower
        || containsSub kwInterested user_lower then
      if state = FSMState.qualification then FSMState.demo_offer else FSMState.confirmation
    else if containsSub kwNo user_lower
        || containsSub kwNotInterested user_lower then
      FSMState.closing
    else if containsSub kwConcern user_lower
        || containsSub kwExpensive user_lower
        || containsSub kwBut user_lower then
      FSMState.objection_handling
    else
      match respTable state with
      | some f => (f language).2.1
      | none => state
  match respTable next_state with
  | some f => ((f language).1, next_state, (f language).2.2)
  | none => ("I\x27m here to help. Could you tell me more?", FSMState.qualification, false)

/-- Speaker of a turn (`"user"` / `"aira"` in the source). -/
inductive Speaker where
  | user
  | aira
deriving DecidableEq

/-- One entry of a call's turn history (`CallTurn` model); the random
per-turn uuid is not modelled (see file header). -/
structure CallTurn where
  timestamp : Nat
  speaker : Speaker
  text : String
  fsm_state : FSMState
deriving DecidableEq

/-- A call session record (`Call` model); the document key (`id`) is
the association-list key of the store. -/
structure Call where
  session_id : Nat
  status : CallStatus
  fsm_state : FSMState
  language : Language
  test_mode : Bool
  start_time : Nat
  end_time : Option Nat
  exit_reason : Option ExitReason
  turns : List CallTurn
  qualification_data : List (String × Bool)
  demo_intent : Bool
  demo_confirmed : Bool
  objections : List String
deriving DecidableEq

/-- A prompt record (`Prompt` model); the document key (`id`) is the
association-list key of the store. -/
structure Prompt where
  fsm_state : FSMState
  language : Language
  text : String
  status : PromptStatus
  version : Nat
  created_at : Nat
  updated_at : Nat
  created_by : String
  notes : Option String
deriving DecidableEq

/-- First entry of an association list with the given key
(Mongo `find_one` on the id field). -/
def afind {α : Type} (l : List (Nat × α)) (id : Nat) : Option (Nat × α) :=
  match l with
  | [] => none
  | x :: rest => if x.1 = id then some x else afind rest id

/-- The record stored under `id`, if any. -/
def alookup {α : Type} (l : List (Nat × α)) (id : Nat) : Option α :=
  (afind l id).map Prod.snd

/-- Mongo `update_one` on an id filter: rewrite the entries with the
given key. -/
def kmap {α : Type} (l : List (Nat × α)) (id : Nat) (f : α → α) : List (Nat × α) :=
  l.map fun x => if x.1 = id then (x.1, f x.2) else x

/-- Overwrite-by-key write into the `qualification_data` mapping
(Mongo dotted `$set` on a map field). -/
def qdSet (m : List (String × Bool)) (k : String) (v : Bool) : List (String × Bool) :=
  match m with
  | [] => [(k, v)]
  | (k', v') :: rest => if k' = k then (k, v) :: rest else (k', v') :: qdSet rest k v

/-- Read a key of the `qualification_data` mapping. -/
def qdGet (m : List (String × Bool)) (k : String) : Option Bool :=
  match m with
  | [] => none
  | (k', v') :: rest => if k' = k then some v' else qdGet rest k

/-- The call-side state of the system: the `calls` collection plus the
fresh-identifier counter standing in for uuid generation. -/
structure Engine where
  nextId : Nat
  calls : List (Nat × Call)
deriving DecidableEq

/-- The empty deployment: no calls yet. -/
def engine0 : Engine := { nextId := 0, calls := [] }

/-- Look a call up by id. -/
def lookupCall (st : Engine) (id : Nat) : Option Call :=
  alookup st.calls id

/-- Response shape of `POST /webcall/start`. -/
structure StartResponse where
  call_id : Nat
  session_id : Nat
  initial_message : String
  fsm_state : FSMState
deriving DecidableEq

/-- The call record `webcall_start` creates: active, at `greeting`,
with the single opening agent turn. -/
def startCall (st : Engine) (language : Language) (test_mode : Bool)
    (now : Nat) : Call :=
  { session_id := st.nextId + 1
    status := CallStatus.active
    fsm_state := FSMState.greeting
    language := language
    test_mode := test_mode
    start_time := now
    end_time := none
    exit_reason := none
    turns := [{ timestamp := now, speaker := Speaker.aira,
                text := (get_simulated_response FSMState.greeting "" language).1,
                fsm_state := FSMState.greeting }]
    qualification_data := []
    demo_intent := false
    demo_confirmed := false
    objections := [] }

/-- `POST /webcall/start`: always succeeds; builds the call at
`greeting` with the single opening agent turn and appends it to the
store. -/
def webcall_start (st : Engine) (language : Language) (test_mode : Bool)
    (now : Nat) : Engine × StartResponse :=
  ({ nextId := st.nextId + 2,
     calls := st.calls ++ [(st.nextId, startCall st language test_mode now)] },
   { call_id := st.nextId, session_id := st.nextId + 1,
     initial_message := (get_simulated_response FSMState.greeting "" language).1,
     fsm_state := FSMState.greeting })

/-- Response shape of `POST /webcall/input`. -/
structure InputResponse where
  aira_response : String
  fsm_state : FSMState
  is_final : Bool
deriving DecidableEq

/-- The write `webcall_input` performs on the call record: append the
user turn tagged with the pre-transition state and the agent turn
tagged with the resolved next state, merge the keyword qualification
signals, advance the state, and stamp completion when the resolver's
`is_final` flag is set.  `rsp` is the resolver's
(text, next state, is final) triple. -/
def applyInput (user_input : String) (now : Nat)
    (rsp : String × FSMState × Bool) (cc : Call) : Call :=
  let response_text := rsp.1
  let next_state := rsp.2.1
  let is_final := rsp.2.2
  let lo := utterLower user_input
  let qd1 :=
    if containsSub kwCompany lo || containsSub kwIndustry lo then
      qdSet cc.qualification_data "industry_mentioned" true
    else cc.qualification_data
  let qd2 :=
    if containsSub kwDemo lo || containsSub kwYes lo then
      qdSet qd1 "demo_intent" true
    else qd1
  { cc with
    turns := cc.turns ++
      [{ timestamp := now, speaker := Speaker.user,
         text := user_input, fsm_state := cc.fsm_state },
       { timestamp := now, speaker := Speaker.aira,
         text := response_text, fsm_state := next_state }]
    fsm_state := next_state
    qualification_data := qd2
    demo_intent :=
      if containsSub kwDemo lo || containsSub kwYes lo then true
      else cc.demo_intent
    status := if is_final then CallStatus.completed else cc.status
    end_time := if is_final then some now else cc.end_time
    exit_reason := if is_final then some ExitReason.completed else cc.exit_reason }

/-- `POST /webcall/input`: 404 when the call id is unknown, 400 when
the call is not active; otherwise performs the `applyInput` write under
the resolver's verdict and returns the response triple. -/
def webcall_input (st : Engine) (call_id : Nat) (user_input : String)
    (now : Nat) : Except ApiError (Engine × InputResponse) :=
  match lookupCall st call_id with
  | none => Except.error ApiError.notFound
  | some c =>
    if c.status ≠ CallStatus.active then Except.error ApiError.invalidState
    else
      let rsp := get_simulated_response c.fsm_state user_input c.language
      Except.ok
        ({ st with calls := kmap st.calls call_id (applyInput user_input now rsp) },
         { aira_response := rsp.1, fsm_state := rsp.2.1, is_final := rsp.2.2 })

/-- The write `webcall_end` performs on the matched call record. -/
def endWrite (now : Nat) (cc : Call) : Call :=
  { cc with
    status := CallStatus.completed
    end_time := some now
    exit_reason := some ExitReason.user_hangup }

/-- `POST /webcall/end`: `update_one` filtered on
`(id, status = active)`; 404 when nothing matched (unknown id or
already-ended call), otherwise stamps completion with exit reason
`user_hangup`. -/
def webcall_end (st : Engine) (call_id : Nat) (now : Nat) :
    Except ApiError Engine :=
  match lookupCall st call_id with
  | none => Except.error ApiError.notFound
  | some c =>
    if c.status = CallStatus.active then
      Except.ok { st with calls := kmap st.calls call_id (endWrite now) }
    else Except.error ApiError.notFound

/-- The prompt-side state of the system: the `prompts` collection plus
the fresh-identifier counter standing in for uuid generation. -/
structure PStore where
  nextId : Nat
  prompts : List (Nat × Prompt)
deriving DecidableEq

/-- The empty deployment: no prompts yet. -/
def pstore0 : PStore := { nextId := 0, prompts := [] }

/-- Look a prompt up by id. -/
def plookup (st : PStore) (id : Nat) : Option Prompt :=
  alookup st.prompts id

/-- Membership of a stored prompt in the `(s, l)` lineage. -/
def inLineage (s : FSMState) (l : Language) (x : Nat × Prompt) : Bool :=
  decide (x.2.fsm_state = s ∧ x.2.language = l)

/-- A stored prompt of the `(s, l)` lineage with status `active`. -/
def isActiveIn (s : FSMState) (l : Language) (x : Nat × Prompt) : Bool :=
  decide (x.2.fsm_state = s ∧ x.2.language = l ∧ x.2.status = PromptStatus.active)

/-- The versions of the prompts of one `(fsm_state, language)` lineage,
in creation (insertion) order. -/
def lineageVersions (st : PStore) (s : FSMState) (l : Language) : List Nat :=
  (st.prompts.filter (inLineage s l)).map fun x => x.2.version

/-- Number of prompts of one lineage. -/
def lineageCount (st : PStore) (s : FSMState) (l : Language) : Nat :=
  st.prompts.countP (inLineage s l)

/-- Number of *active* prompts of one lineage. -/
def activeCount (st : PStore) (s : FSMState) (l : Language) : Nat :=
  st.prompts.countP (isActiveIn s l)

/-- The maximum version present in a lineage, `0` when the lineage is
empty: the `sort("version", -1).limit(1)` query of `create_prompt`. -/
def lineageMax (st : PStore) (s : FSMState) (l : Language) : Nat :=
  (lineageVersions st s l).foldr max 0

/-- `POST /prompts` (`create_prompt`): version is one more than the
current lineage maximum (1 for an empty lineage); the prompt is stored
as a draft.  Always succeeds. -/
def create_prompt (st : PStore) (s : FSMState) (l : Language) (text : String)
    (notes : Option String) (now : Nat) : PStore × Prompt :=
  let version := lineageMax st s l + 1
  let p : Prompt :=
    { fsm_state := s, language := l, text := text,
      status := PromptStatus.draft, version := version,
      created_at := now, updated_at := now, created_by := "admin",
      notes := notes }
  ({ nextId := st.nextId + 1, prompts := st.prompts ++ [(st.nextId, p)] }, p)

/-- The write `update_prompt` performs on the target record: new text,
fresh `updated_at`, and new notes exactly when the request carries a
non-empty notes value (Python truthiness of `request.notes`). -/
def updOne (text : String) (notes : Option String) (now : Nat) (q : Prompt) :
    Prompt :=
  { q with
    text := text
    updated_at := now
    notes := match notes with
      | some s => if s = "" then q.notes else some s
      | none => q.notes }

/-- `PUT /prompts/{id}` (`update_prompt`): 404 when unknown; the source
rejects (400) only prompts whose status is `active`, and otherwise
rewrites text and `updated_at` (and notes, when a non-empty notes value
is supplied), returning the re-fetched record. -/
def update_prompt (st : PStore) (id : Nat) (text : String)
    (notes : Option String) (now : Nat) : Except ApiError (PStore × Prompt) :=
  match plookup st id with
  | none => Except.error ApiError.notFound
  | some p =>
    if p.status = PromptStatus.active then Except.error ApiError.invalidState
    else
      let st' : PStore :=
        { st with prompts := kmap st.prompts id (updOne text notes now) }
      match plookup st' id with
      | some q => Except.ok (st', q)
      | none => Except.error ApiError.notFound

/-- The default notes line `mark_prompt_weak` writes on the spawned
draft when the caller supplies no notes (the uuid of the superseded
prompt is its modelled numeric id). -/
def weakNote (id : Nat) : String :=
  "Replacement for weak prompt " ++ toString id

/-- The write `mark_prompt_weak` performs on the target record. -/
def weakenOne (now : Nat) (q : Prompt) : Prompt :=
  { q with status := PromptStatus.weak, updated_at := now }

/-- `POST /prompts/{id}/mark-weak` (`mark_prompt_weak`): 404 when
unknown; 400 when the replacement text is blank; otherwise marks the
target weak (stamping `updated_at`) and appends a fresh draft of the
same lineage carrying `version + 1`, the replacement text, and the
supplied or defaulted notes. -/
def mark_prompt_weak (st : PStore) (id : Nat) (replacement_text : String)
    (notes : Option String) (now : Nat) : Except ApiError (PStore × Prompt) :=
  match plookup st id with
  | none => Except.error ApiError.notFound
  | some p =>
    if pyBlank replacement_text then Except.error ApiError.validationError
    else
      let weakened := kmap st.prompts id (weakenOne now)
      let new_prompt : Prompt :=
        { fsm_state := p.fsm_state, language := p.language,
          text := replacement_text,
          status := PromptStatus.draft, version := p.version + 1,
          created_at := now, updated_at := now, created_by := "admin",
          notes := some (match notes with
            | some s => if s = "" then weakNote id else s
            | none => weakNote id) }
      Except.ok
        ({ nextId := st.nextId + 1,
           prompts := weakened ++ [(st.nextId, new_prompt)] }, new_prompt)

/-- The archive pass of `publish_prompt`: the `update_many` filtered on
the target's `(fsm_state, language)` lineage and status `active`. -/
def pubArchive (p : Prompt) (now : Nat) (x : Nat × Prompt) : Nat × Prompt :=
  if x.2.fsm_state = p.fsm_state ∧ x.2.language = p.language
      ∧ x.2.status = PromptStatus.active then
    (x.1, { x.2 with status := PromptStatus.archived, updated_at := now })
  else x

/-- The activation write of `publish_prompt`. -/
def pubActivate (now : Nat) (q : Prompt) : Prompt :=
  { q with status := PromptStatus.active, updated_at := now }

/-- The store a successful `publish_prompt` of the draft `p` (stored
under `id`) leaves behind: the archive pass over `p`'s lineage followed
by the activation of `id`. -/
def publishStore (st : PStore) (p : Prompt) (id now : Nat) : PStore :=
  { st with prompts := kmap (st.prompts.map (pubArchive p now)) id (pubActivate now) }

/-- `POST /prompts/{id}/publish` (`publish_prompt`): 404 when unknown;
400 unless the target is a draft; otherwise archives every active
prompt of the target's lineage (`update_many`) and then activates the
target, returning the re-fetched record. -/
def publish_prompt (st : PStore) (id : Nat) (now : Nat) :
    Except ApiError (PStore × Prompt) :=
  match plookup st id with
  | none => Except.error ApiError.notFound
  | some p =>
    if p.status ≠ PromptStatus.draft then Except.error ApiError.invalidState
    else
      let st' := publishStore st p id now
      match plookup st' id with
      | some q => Except.ok (st', q)
      | none => Except.error ApiError.notFound

/-- Prompt-store operations, for reasoning about operation sequences. -/
inductive POp where
  | create (s : FSMState) (l : Language) (text : String)
      (notes : Option String) (now : Nat)
  | update (id : Nat) (text : String) (notes : Option String) (now : Nat)
  | markWeak (id : Nat) (replacement_text : String)
      (notes : Option String) (now : Nat)
  | publish (id : Nat) (now : Nat)

/-- Apply one prompt operation; a failing operation writes nothing
(the endpoints raise before any write in every failure path). -/
def pstep (st : PStore) (op : POp) : PStore :=
  match op with
  | .create s l text notes now => (create_prompt st s l text notes now).1
  | .update id text notes now =>
    match update_prompt st id text notes now with
    | Except.ok (st', _) => st'
    | Except.error _ => st
  | .markWeak id rep notes now =>
    match mark_prompt_weak st id rep notes now with
    | Except.ok (st', _) => st'
    | Except.error _ => st
  | .publish id now =>
    match publish_prompt st id now with
    | Except.ok (st', _) => st'
    | Except.error _ => st

/-- Run a sequence of prompt operations. -/
def runPOps (st : PStore) : List POp → PStore
  | [] => st
  | op :: ops => runPOps (pstep st op) ops

/-! ### Association-list and counting lemmas -/

theorem afind_map_keypres {α : Type} (g : Nat × α → Nat × α)
    (hg : ∀ x, (g x).1 = x.1) (l : List (Nat × α)) (id : Nat) :
    afind (l.map g) id = (afind l id).map g := by
  induction l with
  | nil => rfl
  | cons x rest ih =>
    simp only [List.map_cons, afind, hg x]
    by_cases h : x.1 = id
    · simp [h]
    · simp [h, ih]

theorem afind_key {α : Type} {l : List (Nat × α)} {id : Nat} {x : Nat × α}
    (h : afind l id = some x) : x.1 = id := by
  induction l with
  | nil => simp [afind] at h
  | cons y rest ih =>
    simp only [afind] at h
    by_cases hy : y.1 = id
    · simp [hy] at h; exact h ▸ hy
    · simp [hy] at h; exact ih h

theorem afind_mem {α : Type} {l : List (Nat × α)} {id : Nat} {x : Nat × α}
    (h : afind l id = some x) : x ∈ l := by
  induction l with
  | nil => simp [afind] at h
  | cons y rest ih =>
    simp only [afind] at h
    by_cases hy : y.1 = id
    · simp [hy] at h; simp [h]
    · simp [hy] at h; exact List.mem_cons_of_mem y (ih h)

theorem afind_append_left {α : Type} {l : List (Nat × α)} (l' : List (Nat × α))
    {id : Nat} {x : Nat × α} (h : afind l id = some x) :
    afind (l ++ l') id = some x := by
  induction l with
  | nil => simp [afind] at h
  | cons y rest ih =>
    simp only [afind] at h ⊢
    by_cases hy : y.1 = id
    · simp [hy] at h ⊢; exact h
    · simp [hy] at h ⊢; exact ih h

theorem afind_append_right {α : Type} {l : List (Nat × α)} (l' : List (Nat × α))
    {id : Nat} (h : afind l id = none) :
    afind (l ++ l') id = afind l' id := by
  induction l with
  | nil => rfl
  | cons y rest ih =>
    simp only [afind] at h ⊢
    by_cases hy : y.1 = id
    · simp [hy] at h
    · simp [hy] at h ⊢; exact ih h

theorem afind_none_of_keys {α : Type} {l : List (Nat × α)} {id : Nat}
    (h : ∀ x ∈ l, x.1 ≠ id) : afind l id = none := by
  induction l with
  | nil => rfl
  | cons y rest ih =>
    have hy := h y (by simp)
    simp only [afind, hy, if_false]
    exact ih fun x hx => h x (List.mem_cons_of_mem y hx)

theorem alookup_kmap_self {α : Type} (l : List (Nat × α)) (id : Nat) (f : α → α) :
    alookup (kmap l id f) id = (alookup l id).map f := by
  unfold alookup kmap
  rw [afind_map_keypres (fun x => if x.1 = id then (x.1, f x.2) else x)
    (by intro x; by_cases h : x.1 = id <;> simp [h]) l id]
  cases h : afind l id with
  | none => rfl
  | some x => simp [afind_key h]

theorem alookup_kmap_other {α : Type} (l : List (Nat × α)) (id j : Nat)
    (f : α → α) (hne : j ≠ id) :
    alookup (kmap l id f) j = alookup l j := by
  unfold alookup kmap
  rw [afind_map_keypres (fun x => if x.1 = id then (x.1, f x.2) else x)
    (by intro x; by_cases h : x.1 = id <;> simp [h]) l j]
  cases h : afind l j with
  | none => rfl
  | some x =>
    have hx := afind_key h
    simp [hx, hne]

theorem countP_map_eq {α β : Type} (p : β → Bool) (f : α → β) (l : List α) :
    (l.map f).countP p = l.countP fun a => p (f a) := by
  induction l with
  | nil => rfl
  | cons x rest ih => simp [List.countP_cons, ih]

theorem countP_le_of_imp {α : Type} {p q : α → Bool} {l : List α}
    (h : ∀ a ∈ l, p a = true → q a = true) : l.countP p ≤ l.countP q := by
  induction l with
  | nil => simp
  | cons x rest ih =>
    have hx := h x (by simp)
    have hr : rest.countP p ≤ rest.countP q :=
      ih fun a ha => h a (List.mem_cons_of_mem x ha)
    simp only [List.countP_cons]
    by_cases hp : p x = true
    · simp [hp, hx hp]; omega
    · simp only [Bool.not_eq_true] at hp
      simp only [hp]
      by_cases hq : q x = true <;> simp [hq] <;> omega

theorem countP_eq_zero_of {α : Type} {p : α → Bool} {l : List α}
    (h : ∀ a ∈ l, p a = false) : l.countP p = 0 := by
  induction l with
  | nil => rfl
  | cons x rest ih =>
    simp only [List.countP_cons, h x (by simp)]
    simpa using ih fun a ha => h a (List.mem_cons_of_mem x ha)

theorem countP_le_add_of_imp {α : Type} {p q r : α → Bool} {l : List α}
    (h : ∀ a ∈ l, p a = true → q a = true ∨ r a = true) :
    l.countP p ≤ l.countP q + l.countP r := by
  induction l with
  | nil => simp
  | cons x rest ih =>
    have hr : rest.countP p ≤ rest.countP q + rest.countP r :=
      ih fun a ha => h a (List.mem_cons_of_mem x ha)
    simp only [List.countP_cons]
    by_cases hp : p x = true
    · rcases h x (by simp) hp with hq | hq <;> simp [hp, hq] <;> omega
    · simp only [Bool.not_eq_true] at hp
      simp only [hp]
      by_cases hq : q x = true <;> by_cases hrx : r x = true <;>
        simp [hq, hrx] <;> omega

theorem countP_append_eq {α : Type} (p : α → Bool) (l l' : List α) :
    (l ++ l').countP p = l.countP p + l'.countP p := by
  induction l with
  | nil => simp
  | cons x rest ih => simp [List.countP_cons, ih]; omega

/-! ### Projection helpers for stating concrete-run facts -/

/-- View of a `webcall_input` result: `(next state, is final)` on
success, `none` on error. -/
def inputView (e : Except ApiError (Engine × InputResponse)) :
    Option (FSMState × Bool) :=
  match e with
  | Except.ok (_, r) => some (r.fsm_state, r.is_final)
  | Except.error _ => none

/-- Apply one `webcall_input`, keeping the old engine on error. -/
def stepInput (st : Engine) (id : Nat) (u : String) (now : Nat) : Engine :=
  match webcall_input st id u now with
  | Except.ok (st', _) => st'
  | Except.error _ => st

/-- The stored call's status, if the call exists. -/
def callStatusOf (st : Engine) (id : Nat) : Option CallStatus :=
  (lookupCall st id).map Call.status

/-- The stored call's current FSM state, if the call exists. -/
def callStateOf (st : Engine) (id : Nat) : Option FSMState :=
  (lookupCall st id).map Call.fsm_state

/-- The stored call's `demo_intent` flag, if the call exists. -/
def callDemoIntent (st : Engine) (id : Nat) : Option Bool :=
  (lookupCall st id).map Call.demo_intent

/-- One `qualification_data` key of the stored call. -/
def callQD (st : Engine) (id : Nat) (k : String) : Option Bool :=
  match lookupCall st id with
  | some c => qdGet c.qualification_data k
  | none => none

/-- View of an `update_prompt` / `mark_prompt_weak` / `publish_prompt`
result: the returned prompt's `(text, status)` on success. -/
def upView (e : Except ApiError (PStore × Prompt)) :
    Option (String × PromptStatus) :=
  match e with
  | Except.ok (_, q) => some (q.text, q.status)
  | Except.error _ => none

/-! ### C3 — resolver keyword precedence -/

/-- C3 counterexample: the claim says an utterance containing
"not interested" resolves to `closing`; in the code the
affirmative branch is checked first and "not interested" contains
"interested", so from `qualification` it resolves to `demo_offer`,
which is not `closing`. -/
theorem not_interested_not_closing :
    (get_simulated_response FSMState.qualification "not interested"
      Language.en).2.1 = FSMState.demo_offer
    ∧ FSMState.demo_offer ≠ FSMState.closing := by
  constructor
  · decide
  · decide

/-- C3 (amended): the resolver checks the affirmative/demo keyword
family before the negative one.  For every state and language, an
utterance whose lowercased text contains none of "demo", "yes",
"interested" and does contain "no" (or "not interested") resolves to
next state `closing`; and for every language the utterance
"not interested" matches the affirmative branch instead, resolving to
`demo_offer` from `qualification`. -/
theorem resolver_affirmative_precedence :
    (∀ (state : FSMState) (u : String) (lang : Language),
      containsSub kwDemo (utterLower u) = false →
      containsSub kwYes (utterLower u) = false →
      containsSub kwInterested (utterLower u) = false →
      (containsSub kwNo (utterLower u) = true ∨
        containsSub kwNotInterested (utterLower u) = true) →
      (get_simulated_response state u lang).2.1 = FSMState.closing)
    ∧ (∀ lang : Language,
      (get_simulated_response FSMState.qualification "not interested"
        lang).2.1 = FSMState.demo_offer) := by
  constructor
  · intro state u lang h1 h2 h3 h4
    have hno : (containsSub kwNo (utterLower u)
        || containsSub kwNotInterested (utterLower u)) = true := by
      rcases h4 with h | h <;> simp [h]
    simp only [get_simulated_response, h1, h2, h3, hno, Bool.or_false,
      Bool.false_or, Bool.or_true, Bool.true_or]
    simp [respTable]
  · intro lang
    cases lang <;> decide

/-- C3 witness: a concrete utterance satisfying the amended theorem's
hypotheses ("no thanks" from `confirmation` in English), resolving to
`closing`. -/
theorem resolver_affirmative_precedence_witness :
    containsSub kwDemo (utterLower "no thanks") = false
    ∧ containsSub kwYes (utterLower "no thanks") = false
    ∧ containsSub kwInterested (utterLower "no thanks") = false
    ∧ containsSub kwNo (utterLower "no thanks") = true
    ∧ (get_simulated_response FSMState.confirmation "no thanks"
        Language.en).2.1 = FSMState.closing :=
  ⟨by decide, by decide, by decide, by decide,
    resolver_affirmative_precedence.1 FSMState.confirmation "no thanks"
      Language.en (by decide) (by decide) (by decide) (Or.inl (by decide))⟩

/-! ### C4 — end-to-end scenario -/

/-- Engine after `webcall_start` in English. -/
def e2e_st1 : Engine := (webcall_start engine0 Language.en true 1).1

/-- Engine after the first user input of the scenario. -/
def e2e_st2 : Engine := stepInput e2e_st1 0 "I am interested in a demo" 2

/-- Engine after the second user input of the scenario. -/
def e2e_st3 : Engine := stepInput e2e_st2 0 "yes please" 3

/-- Engine after the third user input of the scenario. -/
def e2e_st4 : Engine := stepInput e2e_st3 0 "no thanks, ok bye" 4

/-- C4 counterexample: the claim says the first `submitInput` returns
state `demo_offer`; in the code `webcall_start` leaves the call at
`greeting` (not `qualification`), so the affirmative branch resolves to
`confirmation`, which is not `demo_offer`. -/
theorem first_input_not_demo_offer :
    callStateOf e2e_st1 0 = some FSMState.greeting
    ∧ inputView (webcall_input e2e_st1 0 "I am interested in a demo" 2)
        = some (FSMState.confirmation, false)
    ∧ FSMState.confirmation ≠ FSMState.demo_offer := by
  refine ⟨by decide, by decide, by decide⟩

/-- C4 (amended): after starting an English session the call is in the
`greeting` state; submitting "I am interested in a demo" returns state
`confirmation` (the affirmative branch with current state other than
`qualification`), `isFinal = false`, and sets
`qualification_data.demo_intent = true` and the call's `demo_intent`
flag; a second input "yes please" returns `confirmation` again; a third
input "no thanks, ok bye" returns `closing` with `isFinal = true`, and
the call's status becomes `completed`. -/
theorem end_to_end_run :
    callStateOf e2e_st1 0 = some FSMState.greeting
    ∧ inputView (webcall_input e2e_st1 0 "I am interested in a demo" 2)
        = some (FSMState.confirmation, false)
    ∧ callQD e2e_st2 0 "demo_intent" = some true
    ∧ callDemoIntent e2e_st2 0 = some true
    ∧ inputView (webcall_input e2e_st2 0 "yes please" 3)
        = some (FSMState.confirmation, false)
    ∧ inputView (webcall_input e2e_st3 0 "no thanks, ok bye" 4)
        = some (FSMState.closing, true)
    ∧ callStatusOf e2e_st4 0 = some CallStatus.completed := by
  refine ⟨by decide, by decide, by decide, by decide, by decide, by decide, by decide⟩

/-! ### C5 — update on a non-draft prompt -/

/-- Store holding one weak prompt (id 0, marked weak by `mark-weak`)
and its spawned draft (id 1). -/
def c5store : PStore :=
  runPOps pstore0
    [POp.create FSMState.qualification Language.en "original" none 1,
     POp.markWeak 0 "replacement" none 2]

/-- C5 failing input: the source's `update_prompt` docstring says only
drafts can be edited, and the spec says `update` on a non-draft prompt
fails with InvalidState without mutating the record; but the code only
rejects status `active`, so updating the weak prompt id 0 succeeds and
rewrites its stored text. -/
theorem update_prompt_mutates_weak :
    (plookup c5store 0).map Prompt.status = some PromptStatus.weak
    ∧ upView (update_prompt c5store 0 "changed" none 9)
        = some ("changed", PromptStatus.weak)
    ∧ (plookup (pstep c5store (POp.update 0 "changed" none 9)) 0).map
        Prompt.text = some "changed" := by
  refine ⟨by decide, by decide, by decide⟩

/-! ### Call-engine operation sequences -/

/-- Call-engine operations, for reasoning about operation sequences. -/
inductive Op where
  | start (language : Language) (test_mode : Bool) (now : Nat)
  | input (id : Nat) (u : String) (now : Nat)
  | endCall (id : Nat) (now : Nat)

/-- Apply one call operation; a failing operation writes nothing (the
endpoints raise before any write in every failure path). -/
def stepOp (st : Engine) (op : Op) : Engine :=
  match op with
  | .start lang tm now => (webcall_start st lang tm now).1
  | .input id u now =>
    match webcall_input st id u now with
    | Except.ok (st', _) => st'
    | Except.error _ => st
  | .endCall id now =>
    match webcall_end st id now with
    | Except.ok st' => st'
    | Except.error _ => st

/-- Run a sequence of call operations. -/
def runOps (st : Engine) : List Op → Engine
  | [] => st
  | op :: ops => runOps (stepOp st op) ops

/-- The engine a successful `webcall_end` leaves behind. -/
def endStore (e : Except ApiError Engine) : Option Engine :=
  match e with
  | Except.ok st' => some st'
  | Except.error _ => none

/-- Lookup of one call in the engine a successful `webcall_end` leaves
behind. -/
def endLookupAfter (e : Except ApiError Engine) (id : Nat) :
    Option (Option Call) :=
  (endStore e).map fun s => lookupCall s id

/-- A second `webcall_end` issued against the engine a successful
first one left behind. -/
def endAgain (e : Except ApiError Engine) (id now2 : Nat) :
    Option (Except ApiError Engine) :=
  (endStore e).map fun s => webcall_end s id now2

/-! ### C10 — end-session semantics -/

/-- C10: `end` on an id with no active session — unknown id, or a call
whose status is no longer active — fails with NotFound and changes
nothing; `end` on an active call succeeds, stamping status `completed`,
the end time, and exit reason `user_hangup`, and a second `end` on the
same call fails with NotFound. -/
theorem webcall_end_spec :
    ∀ (st : Engine) (id now : Nat),
      (lookupCall st id = none →
        webcall_end st id now = Except.error ApiError.notFound
        ∧ stepOp st (Op.endCall id now) = st)
      ∧ (∀ c, lookupCall st id = some c → c.status ≠ CallStatus.active →
        webcall_end st id now = Except.error ApiError.notFound
        ∧ stepOp st (Op.endCall id now) = st)
      ∧ (∀ c, lookupCall st id = some c → c.status = CallStatus.active →
        endLookupAfter (webcall_end st id now) id =
          some (some { c with
            status := CallStatus.completed
            end_time := some now
            exit_reason := some ExitReason.user_hangup })
        ∧ ∀ now2, endAgain (webcall_end st id now) id now2 =
            some (Except.error ApiError.notFound)) := by
  intro st id now
  refine ⟨?_, ?_, ?_⟩
  · intro h
    constructor
    · simp [webcall_end, h]
    · simp [stepOp, webcall_end, h]
  · intro c hc hne
    constructor
    · simp [webcall_end, hc, hne]
    · simp [stepOp, webcall_end, hc, hne]
  · intro c hc ha
    have hlk : lookupCall
        { st with calls := kmap st.calls id (endWrite now) } id =
        some { c with
          status := CallStatus.completed
          end_time := some now
          exit_reason := some ExitReason.user_hangup } := by
      simp only [lookupCall]
      rw [alookup_kmap_self]
      have hc' : alookup st.calls id = some c := hc
      rw [hc']
      rfl
    constructor
    · simp only [webcall_end, hc, ha, if_true, endLookupAfter, endStore,
        Option.map_some']
      rw [hlk]
    · intro now2
      simp only [webcall_end, hc, ha, if_true, endAgain, endStore,
        Option.map_some']
      rw [hlk]
      simp

/-- The single active call that `webcall_start` writes in the C10
witness scenario (English, test mode, started at instant 1). -/
def c10call : Call :=
  { session_id := 1
    status := CallStatus.active
    fsm_state := FSMState.greeting
    language := Language.en
    test_mode := true
    start_time := 1
    end_time := none
    exit_reason := none
    turns := [{ timestamp := 1, speaker := Speaker.aira,
                text := (get_simulated_response FSMState.greeting "" Language.en).1,
                fsm_state := FSMState.greeting }]
    qualification_data := []
    demo_intent := false
    demo_confirmed := false
    objections := [] }

/-- C10 witness: ending the freshly started call 0 at instant 7
completes it with exit reason `user_hangup`, and a second `end` at
instant 11 fails with NotFound. -/
theorem webcall_end_spec_witness :
    lookupCall e2e_st1 0 = some c10call
    ∧ c10call.status = CallStatus.active
    ∧ endLookupAfter (webcall_end e2e_st1 0 7) 0 =
        some (some { c10call with
          status := CallStatus.completed
          end_time := some 7
          exit_reason := some ExitReason.user_hangup })
    ∧ endAgain (webcall_end e2e_st1 0 7) 0 11 =
        some (Except.error ApiError.notFound) :=
  ⟨by decide, by decide,
    ((webcall_end_spec e2e_st1 0 7).2.2 c10call (by decide) (by decide)).1,
    ((webcall_end_spec e2e_st1 0 7).2.2 c10call (by decide) (by decide)).2 11⟩

/-! ### C9 — mark-weak semantics -/

/-- The prompt a successful prompt-store operation returns. -/
def resultPrompt (e : Except ApiError (PStore × Prompt)) : Option Prompt :=
  match e with
  | Except.ok (_, q) => some q
  | Except.error _ => none

/-- The store a successful prompt-store operation leaves behind. -/
def resultStore (e : Except ApiError (PStore × Prompt)) : Option PStore :=
  match e with
  | Except.ok (st', _) => some st'
  | Except.error _ => none

/-- Lookup of one prompt in the store a successful operation leaves
behind. -/
def storeLookupAfter (e : Except ApiError (PStore × Prompt)) (id : Nat) :
    Option (Option Prompt) :=
  (resultStore e).map fun s => plookup s id

/-- Number of stored prompts after a successful operation. -/
def storeSizeAfter (e : Except ApiError (PStore × Prompt)) : Option Nat :=
  (resultStore e).map fun s => s.prompts.length

/-- Number of prompts of one lineage after a successful operation. -/
def lineageCountAfter (e : Except ApiError (PStore × Prompt))
    (s : FSMState) (l : Language) : Option Nat :=
  (resultStore e).map fun st => lineageCount st s l

theorem countP_ext {α : Type} {p q : α → Bool} {l : List α}
    (h : ∀ a ∈ l, p a = q a) : l.countP p = l.countP q := by
  induction l with
  | nil => rfl
  | cons x rest ih =>
    simp only [List.countP_cons, h x (by simp)]
    rw [ih fun a ha => h a (List.mem_cons_of_mem x ha)]

theorem countP_kmap_lineage (l : List (Nat × Prompt)) (id : Nat)
    (f : Prompt → Prompt)
    (hf : ∀ q, (f q).fsm_state = q.fsm_state ∧ (f q).language = q.language)
    (s : FSMState) (lng : Language) :
    (kmap l id f).countP (inLineage s lng) = l.countP (inLineage s lng) := by
  unfold kmap
  rw [countP_map_eq]
  refine countP_ext fun a _ => ?_
  by_cases h : a.1 = id
  · simp [h, inLineage, (hf a.2).1, (hf a.2).2]
  · simp [h]

/-- C9: `markWeak` fails with NotFound on an unknown prompt id; on an
existing prompt with blank replacement text it fails with
ValidationError and mutates nothing; with non-blank replacement text it
marks the target weak with a fresh `updated_at`, and creates and
returns exactly one new prompt of the same lineage with
`version = target.version + 1`, status draft, the replacement text, and
notes defaulting to a reference to the superseded prompt's id when the
caller supplies none. -/
theorem mark_prompt_weak_spec :
    ∀ (st : PStore) (id : Nat) (rep : String) (notes : Option String) (now : Nat),
      (plookup st id = none →
        mark_prompt_weak st id rep notes now = Except.error ApiError.notFound
        ∧ pstep st (POp.markWeak id rep notes now) = st)
      ∧ (∀ p, plookup st id = some p → pyBlank rep = true →
        mark_prompt_weak st id rep notes now = Except.error ApiError.validationError
        ∧ pstep st (POp.markWeak id rep notes now) = st)
      ∧ (∀ p, plookup st id = some p → pyBlank rep = false →
        (resultPrompt (mark_prompt_weak st id rep notes now)).map Prompt.version
            = some (p.version + 1)
        ∧ (resultPrompt (mark_prompt_weak st id rep notes now)).map Prompt.status
            = some PromptStatus.draft
        ∧ (resultPrompt (mark_prompt_weak st id rep notes now)).map Prompt.text
            = some rep
        ∧ (resultPrompt (mark_prompt_weak st id rep notes now)).map Prompt.fsm_state
            = some p.fsm_state
        ∧ (resultPrompt (mark_prompt_weak st id rep notes now)).map Prompt.language
            = some p.language
        ∧ (notes = none →
            (resultPrompt (mark_prompt_weak st id rep notes now)).map Prompt.notes
              = some (some (weakNote id)))
        ∧ storeLookupAfter (mark_prompt_weak st id rep notes now) id
            = some (some { p with status := PromptStatus.weak, updated_at := now })
        ∧ storeSizeAfter (mark_prompt_weak st id rep notes now)
            = some (st.prompts.length + 1)
        ∧ lineageCountAfter (mark_prompt_weak st id rep notes now)
              p.fsm_state p.language
            = some (lineageCount st p.fsm_state p.language + 1)) := by
  intro st id rep notes now
  refine ⟨?_, ?_, ?_⟩
  · intro h
    constructor
    · simp [mark_prompt_weak, h]
    · simp [pstep, mark_prompt_weak, h]
  · intro p hp hb
    constructor
    · simp [mark_prompt_weak, hp, hb]
    · simp [pstep, mark_prompt_weak, hp, hb]
  · intro p hp hb
    have hres : mark_prompt_weak st id rep notes now = Except.ok
        ({ nextId := st.nextId + 1,
           prompts := kmap st.prompts id (weakenOne now) ++
             [(st.nextId,
               { fsm_state := p.fsm_state, language := p.language,
                 text := rep, status := PromptStatus.draft,
                 version := p.version + 1, created_at := now,
                 updated_at := now, created_by := "admin",
                 notes := some (match notes with
                   | some s => if s = "" then weakNote id else s
                   | none => weakNote id) })] },
         { fsm_state := p.fsm_state, language := p.language,
           text := rep, status := PromptStatus.draft,
           version := p.version + 1, created_at := now,
           updated_at := now, created_by := "admin",
           notes := some (match notes with
             | some s => if s = "" then weakNote id else s
             | none => weakNote id) }) := by
      simp [mark_prompt_weak, hp, hb]
    have hfind : afind st.prompts id = some (id, p) := by
      have hp' : alookup st.prompts id = some p := hp
      unfold alookup at hp'
      cases haf : afind st.prompts id with
      | none => rw [haf] at hp'; simp at hp'
      | some x =>
        have hx1 : x.1 = id := afind_key haf
        rw [haf] at hp'
        have hx2 : x.2 = p := by simpa using hp'
        cases x with
        | mk a b =>
          simp only at hx1 hx2
          subst hx1
          subst hx2
          rfl
    refine ⟨?_, ?_, ?_, ?_, ?_, ?_, ?_, ?_, ?_⟩
    · simp [hres, resultPrompt]
    · simp [hres, resultPrompt]
    · simp [hres, resultPrompt]
    · simp [hres, resultPrompt]
    · simp [hres, resultPrompt]
    · intro hn
      subst hn
      simp [hres, resultPrompt]
    · have hmap : afind (kmap st.prompts id (weakenOne now)) id
          = some (id, weakenOne now p) := by
        unfold kmap
        rw [afind_map_keypres _ (by intro x; by_cases h : x.1 = id <;> simp [h]),
          hfind]
        simp
      simp only [hres, storeLookupAfter, resultStore, Option.map_some']
      congr 1
      unfold plookup alookup
      rw [afind_append_left _ hmap]
      rfl
    · simp only [hres, storeSizeAfter, resultStore, Option.map_some']
      simp [kmap]
    · simp only [hres, lineageCountAfter, resultStore, Option.map_some',
        lineageCount]
      rw [countP_append_eq,
        countP_kmap_lineage st.prompts id _ (by intro q; exact ⟨rfl, rfl⟩)]
      simp [inLineage, List.countP_cons]

/-- Store for the C9 witness: a single draft prompt (id 0, version 1)
for (qualification, en). -/
def c9store : PStore :=
  (create_prompt pstore0 FSMState.qualification Language.en "original" none 1).1

/-- The prompt stored under id 0 of the C9 witness store. -/
def c9prompt : Prompt :=
  { fsm_state := FSMState.qualification, language := Language.en,
    text := "original", status := PromptStatus.draft, version := 1,
    created_at := 1, updated_at := 1, created_by := "admin", notes := none }

/-- C9 witness: marking prompt 0 weak with replacement text "better"
and no notes spawns the version-2 draft carrying the default notes
reference, marks prompt 0 weak, and grows the store and the lineage by
exactly one prompt. -/
theorem mark_prompt_weak_spec_witness :
    plookup c9store 0 = some c9prompt
    ∧ pyBlank "better" = false
    ∧ (resultPrompt (mark_prompt_weak c9store 0 "better" none 7)).map Prompt.version
        = some (c9prompt.version + 1)
    ∧ (resultPrompt (mark_prompt_weak c9store 0 "better" none 7)).map Prompt.status
        = some PromptStatus.draft
    ∧ (resultPrompt (mark_prompt_weak c9store 0 "better" none 7)).map Prompt.text
        = some "better"
    ∧ (resultPrompt (mark_prompt_weak c9store 0 "better" none 7)).map Prompt.notes
        = some (some (weakNote 0))
    ∧ storeLookupAfter (mark_prompt_weak c9store 0 "better" none 7) 0
        = some (some { c9prompt with status := PromptStatus.weak, updated_at := 7 })
    ∧ storeSizeAfter (mark_prompt_weak c9store 0 "better" none 7)
        = some (c9store.prompts.length + 1)
    ∧ lineageCountAfter (mark_prompt_weak c9store 0 "better" none 7)
          FSMState.qualification Language.en
        = some (lineageCount c9store FSMState.qualification Language.en + 1) :=
  have h := (mark_prompt_weak_spec c9store 0 "better" none 7).2.2 c9prompt
    (by decide) (by decide)
  ⟨by decide, by decide, h.1, h.2.1, h.2.2.1, h.2.2.2.2.2.1 rfl,
    h.2.2.2.2.2.2.1, h.2.2.2.2.2.2.2.1, h.2.2.2.2.2.2.2.2⟩

/-! ### C8 — start-session semantics -/

/-- C8: `start` always succeeds for every language and test-mode flag
(it is a total function of the engine); it returns fresh call and
session identifiers, initial state `greeting`, and the text the
resolver synthesizes for the `greeting` state with an empty utterance;
and it stores a new active call at FSM state `greeting` whose history
is exactly one agent turn tagged with `greeting` carrying that text. -/
theorem webcall_start_greeting :
    ∀ (st : Engine) (lang : Language) (tm : Bool) (now : Nat),
      (∀ x ∈ st.calls, x.1 < st.nextId) →
      (webcall_start st lang tm now).2.fsm_state = FSMState.greeting
      ∧ (webcall_start st lang tm now).2.initial_message
          = (get_simulated_response FSMState.greeting "" lang).1
      ∧ lookupCall st (webcall_start st lang tm now).2.call_id = none
      ∧ (webcall_start st lang tm now).2.call_id
          ≠ (webcall_start st lang tm now).2.session_id
      ∧ lookupCall (webcall_start st lang tm now).1
            (webcall_start st lang tm now).2.call_id
          = some
            { session_id := (webcall_start st lang tm now).2.session_id
              status := CallStatus.active
              fsm_state := FSMState.greeting
              language := lang
              test_mode := tm
              start_time := now
              end_time := none
              exit_reason := none
              turns := [{ timestamp := now, speaker := Speaker.aira,
                          text := (get_simulated_response FSMState.greeting "" lang).1,
                          fsm_state := FSMState.greeting }]
              qualification_data := []
              demo_intent := false
              demo_confirmed := false
              objections := [] } := by
  intro st lang tm now hb
  have hnone : afind st.calls st.nextId = none :=
    afind_none_of_keys fun x hx => Nat.ne_of_lt (hb x hx)
  refine ⟨rfl, rfl, ?_, by simp [webcall_start], ?_⟩
  · simp only [webcall_start, lookupCall]
    unfold alookup
    rw [hnone]
    rfl
  · simp only [webcall_start, lookupCall]
    unfold alookup
    rw [afind_append_right _ hnone]
    simp [afind, startCall]

/-- C8 witness: starting on the empty deployment in English at instant
1 yields call id 0, session id 1, the greeting-state resolver text, and
the stored single-turn active call. -/
theorem webcall_start_greeting_witness :
    (∀ x ∈ engine0.calls, x.1 < engine0.nextId)
    ∧ ((webcall_start engine0 Language.en true 1).2.fsm_state = FSMState.greeting
      ∧ (webcall_start engine0 Language.en true 1).2.initial_message
          = (get_simulated_response FSMState.greeting "" Language.en).1
      ∧ lookupCall engine0 (webcall_start engine0 Language.en true 1).2.call_id = none
      ∧ (webcall_start engine0 Language.en true 1).2.call_id
          ≠ (webcall_start engine0 Language.en true 1).2.session_id
      ∧ lookupCall (webcall_start engine0 Language.en true 1).1
            (webcall_start engine0 Language.en true 1).2.call_id
          = some
            { session_id := (webcall_start engine0 Language.en true 1).2.session_id
              status := CallStatus.active
              fsm_state := FSMState.greeting
              language := Language.en
              test_mode := true
              start_time := 1
              end_time := none
              exit_reason := none
              turns := [{ timestamp := 1, speaker := Speaker.aira,
                          text := (get_simulated_response FSMState.greeting "" Language.en).1,
                          fsm_state := FSMState.greeting }]
              qualification_data := []
              demo_intent := false
              demo_confirmed := false
              objections := [] }) :=
  ⟨by simp [engine0], webcall_start_greeting engine0 Language.en true 1 (by simp [engine0])⟩

/-! ### C1 — at most one active prompt per lineage -/

theorem afind_of_alookup {α : Type} {l : List (Nat × α)} {id : Nat} {a : α}
    (h : alookup l id = some a) : afind l id = some (id, a) := by
  unfold alookup at h
  cases haf : afind l id with
  | none => rw [haf] at h; simp at h
  | some x =>
    have hx1 : x.1 = id := afind_key haf
    rw [haf] at h
    have hx2 : x.2 = a := by simpa using h
    cases x with
    | mk u v =>
      simp only at hx1 hx2
      subst hx1
      subst hx2
      rfl

theorem countP_key_le_one {α : Type} (l : List (Nat × α))
    (hnd : (l.map Prod.fst).Nodup) (id : Nat) :
    (l.countP fun x => decide (x.1 = id)) ≤ 1 := by
  induction l with
  | nil => simp
  | cons x rest ih =>
    simp only [List.map_cons, List.nodup_cons] at hnd
    simp only [List.countP_cons]
    by_cases hx : x.1 = id
    · have hz : (rest.countP fun y => decide (y.1 = id)) = 0 := by
        refine countP_eq_zero_of fun a ha => ?_
        have hne : a.1 ≠ id := by
          intro hc
          have hmem : a.1 ∈ rest.map Prod.fst := List.mem_map_of_mem Prod.fst ha
          rw [hc, ← hx] at hmem
          exact hnd.1 hmem
        simp [hne]
      simp [hx, hz]
    · have := ih hnd.2
      simp [hx]
      omega

theorem mem_key_eq_of_nodup {α : Type} {l : List (Nat × α)}
    (hnd : (l.map Prod.fst).Nodup) {id : Nat} {a : α}
    (hf : afind l id = some (id, a)) :
    ∀ x ∈ l, x.1 = id → x = (id, a) := by
  induction l with
  | nil => simp [afind] at hf
  | cons z rest ih =>
    simp only [List.map_cons, List.nodup_cons] at hnd
    intro x hx hxid
    simp only [afind] at hf
    by_cases hz : z.1 = id
    · rw [if_pos hz] at hf
      have hza : z = (id, a) := Option.some.inj hf
      rcases List.mem_cons.mp hx with rfl | hxr
      · exact hza
      · exfalso
        have hmem : x.1 ∈ rest.map Prod.fst := List.mem_map_of_mem Prod.fst hxr
        rw [hxid, ← hz] at hmem
        exact hnd.1 hmem
    · rw [if_neg hz] at hf
      rcases List.mem_cons.mp hx with rfl | hxr
      · exact absurd hxid hz
      · exact ih hnd.2 hf x hxr hxid

theorem kmap_keys {α : Type} (l : List (Nat × α)) (id : Nat) (f : α → α) :
    (kmap l id f).map Prod.fst = l.map Prod.fst := by
  unfold kmap
  rw [List.map_map]
  congr 1
  funext x
  by_cases h : x.1 = id <;> simp [h]

theorem pubArchive_key (p : Prompt) (now : Nat) (x : Nat × Prompt) :
    (pubArchive p now x).1 = x.1 := by
  unfold pubArchive
  by_cases h : x.2.fsm_state = p.fsm_state ∧ x.2.language = p.language
      ∧ x.2.status = PromptStatus.active <;> simp [h]

theorem map_keypres_keys {α : Type} (g : Nat × α → Nat × α)
    (hg : ∀ x, (g x).1 = x.1) (l : List (Nat × α)) :
    (l.map g).map Prod.fst = l.map Prod.fst := by
  rw [List.map_map]
  congr 1
  funext x
  exact hg x

/-- Well-formed prompt store: every stored key is below the freshness
counter and keys are pairwise distinct. -/
def pKeysOk (st : PStore) : Prop :=
  (∀ x ∈ st.prompts, x.1 < st.nextId) ∧ (st.prompts.map Prod.fst).Nodup

theorem pKeysOk_append (st : PStore) (q : Prompt) (hk : pKeysOk st) :
    pKeysOk { nextId := st.nextId + 1,
              prompts := st.prompts ++ [(st.nextId, q)] } := by
  constructor
  · intro x hx
    rcases List.mem_append.mp hx with hl | hr
    · have := hk.1 x hl
      simp only
      omega
    · simp only [List.mem_singleton] at hr
      subst hr
      simp only
      omega
  · simp only [List.map_append]
    rw [List.nodup_append]
    refine ⟨hk.2, List.nodup_singleton _, ?_⟩
    intro a ha hb
    simp only [List.map_cons, List.map_nil, List.mem_singleton] at hb
    subst hb
    obtain ⟨y, hy, hy1⟩ := List.mem_map.mp ha
    have := hk.1 y hy
    omega

theorem pKeysOk_kmap_append (st : PStore) (id : Nat) (f : Prompt → Prompt)
    (q : Prompt) (hk : pKeysOk st) :
    pKeysOk { nextId := st.nextId + 1,
              prompts := kmap st.prompts id f ++ [(st.nextId, q)] } := by
  have hkeys : (kmap st.prompts id f).map Prod.fst = st.prompts.map Prod.fst :=
    kmap_keys st.prompts id f
  constructor
  · intro x hx
    rcases List.mem_append.mp hx with hl | hr
    · obtain ⟨y, hy, hyx⟩ := List.mem_map.mp
        (hkeys ▸ List.mem_map_of_mem Prod.fst hl)
      simp only
      have hb := hk.1 y hy
      omega
    · simp only [List.mem_singleton] at hr
      subst hr
      simp only
      omega
  · simp only [List.map_append, hkeys]
    rw [List.nodup_append]
    refine ⟨hk.2, List.nodup_singleton _, ?_⟩
    intro a ha hb
    simp only [List.map_cons, List.map_nil, List.mem_singleton] at hb
    subst hb
    obtain ⟨y, hy, hy1⟩ := List.mem_map.mp ha
    have := hk.1 y hy
    omega

theorem pKeysOk_kmap (st : PStore) (id : Nat) (f : Prompt → Prompt)
    (hk : pKeysOk st) :
    pKeysOk { st with prompts := kmap st.prompts id f } := by
  have hkeys := kmap_keys st.prompts id f
  constructor
  · intro x hx
    obtain ⟨y, hy, hyx⟩ := List.mem_map.mp (hkeys ▸ List.mem_map_of_mem Prod.fst hx)
    have := hk.1 y hy
    simp only
    omega
  · simp only [hkeys]
    exact hk.2

theorem update_prompt_ok {st : PStore} {id : Nat} {text : String}
    {notes : Option String} {now : Nat} {st' : PStore} {q : Prompt}
    (h : update_prompt st id text notes now = Except.ok (st', q)) :
    st' = { st with prompts := kmap st.prompts id (updOne text notes now) } := by
  unfold update_prompt at h
  cases hp : plookup st id with
  | none =>
    simp only [hp] at h
    exact Except.noConfusion h
  | some p =>
    simp only [hp] at h
    by_cases hs : p.status = PromptStatus.active
    · rw [if_pos hs] at h; simp at h
    · rw [if_neg hs] at h
      cases hq : plookup
          { st with prompts := kmap st.prompts id (updOne text notes now) } id with
      | none =>
        simp only [hq] at h
        exact Except.noConfusion h
      | some r =>
        simp only [hq] at h
        have h2 := Except.ok.inj h
        exact congrArg Prod.fst h2.symm

theorem mark_prompt_weak_ok {st : PStore} {id : Nat} {rep : String}
    {notes : Option String} {now : Nat} {st' : PStore} {q : Prompt}
    (h : mark_prompt_weak st id rep notes now = Except.ok (st', q)) :
    ∃ p, plookup st id = some p
    ∧ q.status = PromptStatus.draft
    ∧ q.fsm_state = p.fsm_state
    ∧ q.language = p.language
    ∧ q.version = p.version + 1
    ∧ st' = { nextId := st.nextId + 1,
              prompts := kmap st.prompts id (weakenOne now) ++ [(st.nextId, q)] } := by
  unfold mark_prompt_weak at h
  cases hp : plookup st id with
  | none =>
    simp only [hp] at h
    exact Except.noConfusion h
  | some p =>
    simp only [hp] at h
    by_cases hb : pyBlank rep
    · rw [if_pos hb] at h; simp at h
    · rw [if_neg hb] at h
      have h2 := Except.ok.inj h
      have hst : st' = _ := congrArg Prod.fst h2.symm
      have hq : q = _ := congrArg Prod.snd h2.symm
      refine ⟨p, rfl, by rw [hq], by rw [hq], by rw [hq], by rw [hq], ?_⟩
      rw [hst, hq]

theorem publish_prompt_ok {st : PStore} {id now : Nat} {st' : PStore}
    {q : Prompt} (h : publish_prompt st id now = Except.ok (st', q)) :
    ∃ p, plookup st id = some p ∧ p.status = PromptStatus.draft
      ∧ st' = publishStore st p id now := by
  unfold publish_prompt at h
  cases hp : plookup st id with
  | none =>
    simp only [hp] at h
    exact Except.noConfusion h
  | some p =>
    simp only [hp] at h
    by_cases hs : p.status = PromptStatus.draft
    · rw [if_neg (by simp [hs])] at h
      cases hq : plookup (publishStore st p id now) id with
      | none =>
        simp only [hq] at h
        exact Except.noConfusion h
      | some r =>
        simp only [hq] at h
        have h2 := Except.ok.inj h
        exact ⟨p, rfl, hs, congrArg Prod.fst h2.symm⟩
    · rw [if_pos (by simp [hs])] at h
      simp at h

theorem isActiveIn_key_irrelevant (s : FSMState) (l : Language)
    (k k' : Nat) (q : Prompt) :
    isActiveIn s l (k, q) = isActiveIn s l (k', q) := rfl

theorem activeCount_append_draft (st : PStore) (n : Nat) (q : Prompt)
    (hq : q.status = PromptStatus.draft) (s : FSMState) (l : Language) :
    (st.prompts ++ [(n, q)]).countP (isActiveIn s l) =
      activeCount st s l := by
  rw [countP_append_eq]
  have h0 : ([(n, q)].countP (isActiveIn s l)) = 0 := by
    refine countP_eq_zero_of fun a ha => ?_
    simp only [List.mem_singleton] at ha
    subst ha
    simp [isActiveIn, hq]
  rw [h0]
  rfl

theorem activeCount_kmap_le (st : PStore) (id : Nat) (f : Prompt → Prompt)
    (hf : ∀ (q : Prompt) (s : FSMState) (l : Language),
      isActiveIn s l (id, f q) = true → isActiveIn s l (id, q) = true)
    (s : FSMState) (l : Language) :
    ((kmap st.prompts id f).countP (isActiveIn s l)) ≤ activeCount st s l := by
  unfold kmap activeCount
  rw [countP_map_eq]
  refine countP_le_of_imp fun a _ ha => ?_
  by_cases h : a.1 = id
  · rw [if_pos h] at ha
    have := hf a.2 s l ha
    exact this
  · rw [if_neg h] at ha
    exact ha

theorem pKeysOk_publishStore (st : PStore) (p : Prompt) (id now : Nat)
    (hk : pKeysOk st) : pKeysOk (publishStore st p id now) := by
  have hkeys : ((publishStore st p id now).prompts).map Prod.fst =
      st.prompts.map Prod.fst := by
    unfold publishStore
    rw [kmap_keys, map_keypres_keys (pubArchive p now) (pubArchive_key p now)]
  constructor
  · intro x hx
    obtain ⟨y, hy, hyx⟩ := List.mem_map.mp (hkeys ▸ List.mem_map_of_mem Prod.fst hx)
    have hb := hk.1 y hy
    show x.1 < st.nextId
    omega
  · rw [hkeys]
    exact hk.2

theorem activeCount_publishStore_le (st : PStore) (p : Prompt) (id now : Nat)
    (hk : pKeysOk st) (hp : plookup st id = some p)
    (hdraft : p.status = PromptStatus.draft)
    (hA : ∀ s l, activeCount st s l ≤ 1) :
    ∀ s l, activeCount (publishStore st p id now) s l ≤ 1 := by
  intro s l
  have hfind : afind st.prompts id = some (id, p) := afind_of_alookup hp
  have hkey : ∀ x ∈ st.prompts, x.1 = id → x = (id, p) :=
    mem_key_eq_of_nodup hk.2 hfind
  unfold activeCount publishStore kmap
  rw [List.map_map, countP_map_eq]
  by_cases hsl : s = p.fsm_state ∧ l = p.language
  · obtain ⟨hs1, hl1⟩ := hsl
    subst hs1
    subst hl1
    refine le_trans (countP_le_of_imp fun y hy ha => ?_)
      (countP_key_le_one st.prompts hk.2 id)
    by_cases hid : y.1 = id
    · simp [hid]
    · exfalso
      have hkeyarch : (pubArchive p now y).1 = y.1 := pubArchive_key p now y
      have hact : isActiveIn p.fsm_state p.language (pubArchive p now y) = true := by
        simpa [Function.comp, kmap, hkeyarch, hid] using ha
      unfold pubArchive at hact
      by_cases hc : y.2.fsm_state = p.fsm_state ∧ y.2.language = p.language
          ∧ y.2.status = PromptStatus.active
      · rw [if_pos hc] at hact
        simp [isActiveIn] at hact
      · rw [if_neg hc] at hact
        simp [isActiveIn] at hact
        exact hc ⟨hact.1, hact.2.1, hact.2.2⟩
  · refine le_trans (countP_le_of_imp fun y hy ha => ?_) (hA s l)
    have hkeyarch : (pubArchive p now y).1 = y.1 := pubArchive_key p now y
    by_cases hid : y.1 = id
    · exfalso
      have hyp : y = (id, p) := hkey y hy hid
      subst hyp
      have harch : pubArchive p now (id, p) = (id, p) := by
        unfold pubArchive
        rw [if_neg]
        intro hc
        rw [hdraft] at hc
        simp at hc
      have hact : isActiveIn s l (id, pubActivate now p) = true := by
        simpa [Function.comp, harch, hid] using ha
      simp only [isActiveIn, pubActivate] at hact
      have := of_decide_eq_true hact
      exact hsl ⟨this.1.symm ▸ rfl, this.2.1.symm ▸ rfl⟩
  -- fall through for the non-target entries
    · have hact : isActiveIn s l (pubArchive p now y) = true := by
        simpa [Function.comp, hkeyarch, hid] using ha
      unfold pubArchive at hact
      by_cases hc : y.2.fsm_state = p.fsm_state ∧ y.2.language = p.language
          ∧ y.2.status = PromptStatus.active
      · rw [if_pos hc] at hact
        simp [isActiveIn] at hact
      · rw [if_neg hc] at hact
        exact hact

/-- Invariant carried over prompt-operation sequences: well-formed keys
plus at most one active prompt per lineage. -/
def pGood (st : PStore) : Prop :=
  pKeysOk st ∧ ∀ s l, activeCount st s l ≤ 1

theorem pstep_update_def (st : PStore) (id : Nat) (text : String)
    (notes : Option String) (now : Nat) :
    pstep st (POp.update id text notes now) =
      (match update_prompt st id text notes now with
       | Except.ok (st', _) => st'
       | Except.error _ => st) := rfl

theorem pstep_markWeak_def (st : PStore) (id : Nat) (rep : String)
    (notes : Option String) (now : Nat) :
    pstep st (POp.markWeak id rep notes now) =
      (match mark_prompt_weak st id rep notes now with
       | Except.ok (st', _) => st'
       | Except.error _ => st) := rfl

theorem pstep_publish_def (st : PStore) (id now : Nat) :
    pstep st (POp.publish id now) =
      (match publish_prompt st id now with
       | Except.ok (st', _) => st'
       | Except.error _ => st) := rfl

theorem pGood_step (st : PStore) (op : POp) (hg : pGood st) :
    pGood (pstep st op) := by
  obtain ⟨hk, hA⟩ := hg
  cases op with
  | create s l text notes now =>
    have hshape : pstep st (POp.create s l text notes now) =
        { nextId := st.nextId + 1,
          prompts := st.prompts ++
            [(st.nextId, Prompt.mk s l text PromptStatus.draft
              (lineageMax st s l + 1) now now "admin" notes)] } := rfl
    rw [hshape]
    refine ⟨pKeysOk_append st _ ⟨hk.1, hk.2⟩, ?_⟩
    intro s' l'
    have := activeCount_append_draft st st.nextId
      (Prompt.mk s l text PromptStatus.draft (lineageMax st s l + 1)
        now now "admin" notes) rfl s' l'
    calc ((st.prompts ++ [(st.nextId, _)]).countP (isActiveIn s' l'))
        = activeCount st s' l' := this
      _ ≤ 1 := hA s' l'
  | update id text notes now =>
    rw [pstep_update_def]
    cases hres : update_prompt st id text notes now with
    | error e => exact ⟨hk, hA⟩
    | ok pr =>
      obtain ⟨st2, q⟩ := pr
      have hst := update_prompt_ok hres
      subst hst
      refine ⟨pKeysOk_kmap st id _ hk, ?_⟩
      intro s l
      refine le_trans (activeCount_kmap_le st id _ ?_ s l) (hA s l)
      intro r s' l' hr
      simp only [isActiveIn, updOne] at hr ⊢
      exact hr
  | markWeak id rep notes now =>
    rw [pstep_markWeak_def]
    cases hres : mark_prompt_weak st id rep notes now with
    | error e => exact ⟨hk, hA⟩
    | ok pr =>
      obtain ⟨st2, q⟩ := pr
      obtain ⟨p, hp, hqd, _, _, _, hst⟩ := mark_prompt_weak_ok hres
      subst hst
      refine ⟨pKeysOk_kmap_append st id _ q hk, ?_⟩
      intro s l
      have h1 := activeCount_kmap_le st id (weakenOne now) ?hw s l
      case hw =>
        intro r s' l' hr
        simp [isActiveIn, weakenOne] at hr
      have h0 : ([(st.nextId, q)].countP (isActiveIn s l)) = 0 := by
        refine countP_eq_zero_of fun a ha => ?_
        simp only [List.mem_singleton] at ha
        subst ha
        simp [isActiveIn, hqd]
      have hcnt : activeCount
          { nextId := st.nextId + 1,
            prompts := kmap st.prompts id (weakenOne now) ++ [(st.nextId, q)] } s l =
          ((kmap st.prompts id (weakenOne now)).countP (isActiveIn s l)) := by
        unfold activeCount
        rw [countP_append_eq, h0]
        rfl
      rw [hcnt]
      exact le_trans h1 (hA s l)
  | publish id now =>
    rw [pstep_publish_def]
    cases hres : publish_prompt st id now with
    | error e => exact ⟨hk, hA⟩
    | ok pr =>
      obtain ⟨st2, q⟩ := pr
      obtain ⟨p, hp, hs, hst⟩ := publish_prompt_ok hres
      subst hst
      exact ⟨pKeysOk_publishStore st p id now hk,
        activeCount_publishStore_le st p id now hk hp hs hA⟩

theorem pGood_run (st : PStore) (ops : List POp) (hg : pGood st) :
    pGood (runPOps st ops) := by
  induction ops generalizing st with
  | nil => exact hg
  | cons op ops ih => exact ih (pstep st op) (pGood_step st op hg)

/-- C1: starting from the empty store, after every sequence of
create / publish / markWeak / update operations, at most one prompt
with status `active` exists per `(fsm_state, language)` pair: `publish`
archives every currently-active prompt of the target's lineage before
activating the target (it is the only operation that ever sets a
prompt's status to `active`), and the other operations only create
drafts, weaken targets, or rewrite text, so the bound is an invariant
of every reachable store. -/
theorem publish_active_unique :
    ∀ (ops : List POp) (s : FSMState) (l : Language),
      activeCount (runPOps pstore0 ops) s l ≤ 1 := by
  intro ops s l
  have h0 : pGood pstore0 := by
    refine ⟨⟨?_, ?_⟩, ?_⟩
    · intro x hx
      simp [pstore0] at hx
    · simp [pstore0]
    · intro s l
      simp [activeCount, pstore0]
  exact (pGood_run pstore0 ops h0).2 s l

/-! ### C2 — version numbering within a lineage -/

theorem foldr_max_init (xs : List Nat) (a : Nat) :
    xs.foldr max a = max a (xs.foldr max 0) := by
  induction xs with
  | nil => simp
  | cons x r ih =>
    simp only [List.foldr_cons, ih]
    omega

theorem foldr_max_range' (k : Nat) : (List.range' 1 k).foldr max 0 = k := by
  induction k with
  | zero => rfl
  | succ n ih =>
    rw [List.range'_concat, List.foldr_append]
    simp only [List.foldr_cons, List.foldr_nil]
    rw [foldr_max_init, ih]
    omega

theorem lineage_filter_map_fieldpres (g : Nat × Prompt → Nat × Prompt)
    (hg : ∀ x, (g x).2.fsm_state = x.2.fsm_state ∧ (g x).2.language = x.2.language
      ∧ (g x).2.version = x.2.version)
    (P : List (Nat × Prompt)) (s : FSMState) (l : Language) :
    ((P.map g).filter (inLineage s l)).map (fun x => x.2.version) =
      (P.filter (inLineage s l)).map (fun x => x.2.version) := by
  induction P with
  | nil => rfl
  | cons x r ih =>
    simp only [List.map_cons, List.filter_cons]
    have h1 : inLineage s l (g x) = inLineage s l x := by
      unfold inLineage
      rw [(hg x).1, (hg x).2.1]
    rw [h1]
    by_cases hc : inLineage s l x = true
    · simp only [hc, if_true, List.map_cons, ih, (hg x).2.2]
    · simp only [Bool.not_eq_true] at hc
      simp only [hc, Bool.false_eq_true, if_false, ih]

/-- A markWeak step is "latest-targeting" when its target carries the
maximum version of its lineage; other operations are unconstrained. -/
def goodOp (st : PStore) : POp → Bool
  | POp.markWeak id _ _ _ =>
    match plookup st id with
    | some p => p.version == lineageMax st p.fsm_state p.language
    | none => true
  | _ => true

/-- All markWeak steps of the sequence are latest-targeting at the
store they execute against. -/
def goodOps : PStore → List POp → Bool
  | _, [] => true
  | st, op :: ops => goodOp st op && goodOps (pstep st op) ops

/-- Every lineage's version list is exactly `1, 2, …, k` in creation
order. -/
def VersionsOk (st : PStore) : Prop :=
  ∀ s l, lineageVersions st s l =
    List.range' 1 (lineageVersions st s l).length

theorem lineageMax_eq_length {st : PStore} (hv : VersionsOk st)
    (s : FSMState) (l : Language) :
    lineageMax st s l = (lineageVersions st s l).length := by
  unfold lineageMax
  rw [hv s l]
  simp only [List.length_range']
  exact foldr_max_range' _

theorem lineageVersions_append (st : PStore) (n : Nat) (q : Prompt)
    (m : Nat) (s : FSMState) (l : Language) :
    lineageVersions { nextId := m, prompts := st.prompts ++ [(n, q)] } s l =
      lineageVersions st s l ++
        (([(n, q)].filter (inLineage s l)).map fun x => x.2.version) := by
  unfold lineageVersions
  rw [List.filter_append, List.map_append]

theorem versions_append_next {st : PStore} (hv : VersionsOk st)
    (n m : Nat) (q : Prompt) (s0 : FSMState) (l0 : Language)
    (hqs : q.fsm_state = s0) (hql : q.language = l0)
    (hqv : q.version = lineageMax st s0 l0 + 1) :
    VersionsOk { nextId := m, prompts := st.prompts ++ [(n, q)] } := by
  intro s l
  rw [lineageVersions_append]
  by_cases hc : inLineage s l (n, q) = true
  · have hin := of_decide_eq_true hc
    have hs : s0 = s := hqs.symm.trans hin.1
    have hl : l0 = l := hql.symm.trans hin.2
    subst hs
    subst hl
    have hmax : lineageMax st s0 l0 = (lineageVersions st s0 l0).length :=
      lineageMax_eq_length hv s0 l0
    simp only [List.filter_cons, hc, if_true, List.filter_nil, List.map_cons,
      List.map_nil]
    rw [hqv, hmax, hv s0 l0]
    simp only [List.length_append, List.length_range', List.length_cons,
      List.length_nil]
    rw [List.range'_concat]
    simp
    omega
  · simp only [Bool.not_eq_true] at hc
    simp only [List.filter_cons, hc, Bool.false_eq_true, if_false,
      List.filter_nil, List.map_nil, List.append_nil]
    exact hv s l

theorem versions_step (st : PStore) (op : POp) (hv : VersionsOk st)
    (hop : goodOp st op = true) : VersionsOk (pstep st op) := by
  cases op with
  | create s0 l0 text notes now =>
    have hshape : pstep st (POp.create s0 l0 text notes now) =
        { nextId := st.nextId + 1,
          prompts := st.prompts ++
            [(st.nextId, Prompt.mk s0 l0 text PromptStatus.draft
              (lineageMax st s0 l0 + 1) now now "admin" notes)] } := rfl
    rw [hshape]
    exact versions_append_next hv st.nextId (st.nextId + 1) _ s0 l0 rfl rfl rfl
  | update id text notes now =>
    rw [pstep_update_def]
    cases hres : update_prompt st id text notes now with
    | error e => exact hv
    | ok pr =>
      obtain ⟨st2, q⟩ := pr
      have hst := update_prompt_ok hres
      subst hst
      intro s l
      have heq : lineageVersions
          { st with prompts := kmap st.prompts id (updOne text notes now) } s l =
          lineageVersions st s l := by
        unfold lineageVersions kmap
        exact lineage_filter_map_fieldpres _
          (by intro x; by_cases h : x.1 = id <;> simp [h, updOne])
          st.prompts s l
      rw [heq]
      exact hv s l
  | markWeak id rep notes now =>
    rw [pstep_markWeak_def]
    cases hres : mark_prompt_weak st id rep notes now with
    | error e => exact hv
    | ok pr =>
      obtain ⟨st2, q⟩ := pr
      obtain ⟨p, hp, hqd, hqs, hql, hqv, hst⟩ := mark_prompt_weak_ok hres
      subst hst
      have hgood : p.version = lineageMax st p.fsm_state p.language := by
        simp only [goodOp, hp] at hop
        simpa using hop
      have hweakP : VersionsOk { st with prompts := kmap st.prompts id (weakenOne now) } := by
        intro s l
        have heq : lineageVersions
            { st with prompts := kmap st.prompts id (weakenOne now) } s l =
            lineageVersions st s l := by
          unfold lineageVersions kmap
          exact lineage_filter_map_fieldpres _
            (by intro x; by_cases h : x.1 = id <;> simp [h, weakenOne])
            st.prompts s l
        rw [heq]
        exact hv s l
      have hmaxpres : lineageMax
          { st with prompts := kmap st.prompts id (weakenOne now) }
          p.fsm_state p.language = lineageMax st p.fsm_state p.language := by
        unfold lineageMax lineageVersions kmap
        rw [lineage_filter_map_fieldpres _
          (by intro x; by_cases h : x.1 = id <;> simp [h, weakenOne])
          st.prompts p.fsm_state p.language]
      have happ := versions_append_next hweakP st.nextId (st.nextId + 1) q
        p.fsm_state p.language hqs hql
        (by rw [hmaxpres, ← hgood]; exact hqv)
      exact happ
  | publish id now =>
    rw [pstep_publish_def]
    cases hres : publish_prompt st id now with
    | error e => exact hv
    | ok pr =>
      obtain ⟨st2, q⟩ := pr
      obtain ⟨p, hp, hs, hst⟩ := publish_prompt_ok hres
      subst hst
      intro s l
      have heq : lineageVersions (publishStore st p id now) s l =
          lineageVersions st s l := by
        unfold lineageVersions publishStore kmap
        rw [List.map_map]
        exact lineage_filter_map_fieldpres _
          (by
            intro x
            have harch : (pubArchive p now x).2.fsm_state = x.2.fsm_state
                ∧ (pubArchive p now x).2.language = x.2.language
                ∧ (pubArchive p now x).2.version = x.2.version := by
              unfold pubArchive
              by_cases hc : x.2.fsm_state = p.fsm_state
                  ∧ x.2.language = p.language
                  ∧ x.2.status = PromptStatus.active <;>
                simp [hc]
            by_cases h : (pubArchive p now x).1 = id <;>
              simp [Function.comp, h, pubActivate, harch.1, harch.2.1, harch.2.2])
          st.prompts s l
      rw [heq]
      exact hv s l

theorem versions_run (st : PStore) (ops : List POp) (hv : VersionsOk st)
    (hg : goodOps st ops = true) : VersionsOk (runPOps st ops) := by
  induction ops generalizing st with
  | nil => exact hv
  | cons op ops ih =>
    unfold goodOps at hg
    have hsplit : goodOp st op = true ∧ goodOps (pstep st op) ops = true := by
      simpa using hg
    exact ih (pstep st op) (versions_step st op hv hsplit.1) hsplit.2

/-- Store for the C2 counterexample: two prompts created for
(qualification, en) — versions 1 (id 0) and 2 (id 1) — then `markWeak`
on the *older* prompt id 0. -/
def c2store : PStore :=
  runPOps pstore0
    [POp.create FSMState.qualification Language.en "a" none 1,
     POp.create FSMState.qualification Language.en "b" none 2,
     POp.markWeak 0 "c" none 3]

/-- C2 counterexample: `markWeak` assigns `target.version + 1`, not
`lineage max + 1`; marking the version-1 prompt weak while a version-2
prompt exists creates a second version-2 prompt in the same lineage, so
versions are neither unique nor strictly increasing in creation order
(the lineage's version list is `[1, 2, 2]`). -/
theorem markWeak_duplicates_version :
    (plookup c2store 1).map Prompt.version = some 2
    ∧ (plookup c2store 2).map Prompt.version = some 2
    ∧ (plookup c2store 1).map Prompt.fsm_state
        = (plookup c2store 2).map Prompt.fsm_state
    ∧ (plookup c2store 1).map Prompt.language
        = (plookup c2store 2).map Prompt.language
    ∧ (1 : Nat) ≠ 2
    ∧ lineageVersions c2store FSMState.qualification Language.en = [1, 2, 2] := by
  refine ⟨by decide, by decide, by decide, by decide, by decide, by decide⟩

/-- C2 (amended): for every sequence of create and markWeak operations
within one `(fsm_state, language)` lineage *in which every markWeak
targets the highest-versioned prompt of its lineage*, the version
numbers of the lineage are strictly increasing integers starting at 1,
gapless in creation order, and never reused — the lineage's version
list is exactly `1, 2, …, k`.  (`markWeak` assigns
`target.version + 1`, so targeting a non-latest prompt duplicates an
existing version; update and publish never touch version numbers.) -/
theorem lineage_versions_gapless :
    ∀ (ops : List POp), goodOps pstore0 ops = true →
    ∀ (s : FSMState) (l : Language),
      lineageVersions (runPOps pstore0 ops) s l =
        List.range' 1 (lineageVersions (runPOps pstore0 ops) s l).length := by
  intro ops hg s l
  have h0 : VersionsOk pstore0 := by
    intro s l
    simp [lineageVersions, pstore0]
  exact versions_run pstore0 ops h0 hg s l

/-- C2 witness: three creates for (qualification, en) and one
latest-targeting markWeak yield the version list `1, 2, 3, 4` — i.e.
`List.range' 1 4`. -/
theorem lineage_versions_gapless_witness :
    goodOps pstore0
      [POp.create FSMState.qualification Language.en "a" none 1,
       POp.create FSMState.qualification Language.en "b" none 2,
       POp.create FSMState.qualification Language.en "c" none 3,
       POp.markWeak 2 "d" none 4] = true
    ∧ lineageVersions
        (runPOps pstore0
          [POp.create FSMState.qualification Language.en "a" none 1,
           POp.create FSMState.qualification Language.en "b" none 2,
           POp.create FSMState.qualification Language.en "c" none 3,
           POp.markWeak 2 "d" none 4])
        FSMState.qualification Language.en =
      List.range' 1
        (lineageVersions
          (runPOps pstore0
            [POp.create FSMState.qualification Language.en "a" none 1,
             POp.create FSMState.qualification Language.en "b" none 2,
             POp.create FSMState.qualification Language.en "c" none 3,
             POp.markWeak 2 "d" none 4])
          FSMState.qualification Language.en).length :=
  ⟨by decide,
    lineage_versions_gapless
      [POp.create FSMState.qualification Language.en "a" none 1,
       POp.create FSMState.qualification Language.en "b" none 2,
       POp.create FSMState.qualification Language.en "c" none 3,
       POp.markWeak 2 "d" none 4]
      (by decide) FSMState.qualification Language.en⟩

/-! ### C6 — strict turn appending -/

theorem webcall_input_ok {st : Engine} {id : Nat} {u : String} {now : Nat}
    {st' : Engine} {r : InputResponse}
    (h : webcall_input st id u now = Except.ok (st', r)) :
    ∃ c, lookupCall st id = some c ∧ c.status = CallStatus.active
      ∧ r = { aira_response := (get_simulated_response c.fsm_state u c.language).1,
              fsm_state := (get_simulated_response c.fsm_state u c.language).2.1,
              is_final := (get_simulated_response c.fsm_state u c.language).2.2 }
      ∧ st' = { st with calls := (kmap st.calls id
          (applyInput u now (get_simulated_response c.fsm_state u c.language))) } := by
  unfold webcall_input at h
  cases hc : lookupCall st id with
  | none =>
    simp only [hc] at h
    exact Except.noConfusion h
  | some c =>
    simp only [hc] at h
    by_cases hs : c.status = CallStatus.active
    · rw [if_neg (by simp [hs])] at h
      have h2 := Except.ok.inj h
      exact ⟨c, rfl, hs, congrArg Prod.snd h2.symm, congrArg Prod.fst h2.symm⟩
    · rw [if_pos (by simp [hs])] at h
      exact Except.noConfusion h

theorem input_step_turns {st : Engine} {id : Nat} {u : String} {now : Nat}
    {st' : Engine} {r : InputResponse} {c : Call}
    (h : webcall_input st id u now = Except.ok (st', r))
    (hc : lookupCall st id = some c) :
    lookupCall st' id = some
      (applyInput u now (get_simulated_response c.fsm_state u c.language) c) := by
  obtain ⟨c0, hc0, _, _, hst⟩ := webcall_input_ok h
  have hcc : c0 = c := Option.some.inj (hc0.symm.trans hc)
  subst hcc
  subst hst
  show alookup (kmap st.calls id _) id = _
  rw [alookup_kmap_self]
  have hc' : alookup st.calls id = some c0 := hc
  rw [hc']
  rfl

/-- Run a sequence of `(utterance, instant)` inputs against one call
id; `none` when any of them fails. -/
def runInputs (st : Engine) (id : Nat) : List (String × Nat) → Option Engine
  | [] => some st
  | (u, now) :: rest =>
    match webcall_input st id u now with
    | Except.ok (st', _) => runInputs st' id rest
    | Except.error _ => none

/-- The stored call's first `n` turns and its turn count. -/
def turnsView (st : Engine) (id : Nat) (n : Nat) :
    Option (List CallTurn × Nat) :=
  (lookupCall st id).map fun c => (c.turns.take n, c.turns.length)

/-- C6: each successful `submitInput` appends exactly two turns to the
call — first a user turn tagged with the pre-transition state, then an
agent turn tagged with the resolved next state — and over every
sequence of N successful inputs the previously stored turns survive
unchanged as a prefix while the turn count grows to the initial count
plus 2N. -/
theorem webcall_input_appends_turns :
    (∀ (st : Engine) (id : Nat) (u : String) (now : Nat) (st' : Engine)
        (r : InputResponse) (c : Call),
      webcall_input st id u now = Except.ok (st', r) →
      lookupCall st id = some c →
      (lookupCall st' id).map Call.turns =
        some (c.turns ++
          [{ timestamp := now, speaker := Speaker.user, text := u,
             fsm_state := c.fsm_state },
           { timestamp := now, speaker := Speaker.aira,
             text := r.aira_response, fsm_state := r.fsm_state }]))
    ∧ (∀ (ops : List (String × Nat)) (st st' : Engine) (id : Nat) (c : Call),
      runInputs st id ops = some st' →
      lookupCall st id = some c →
      turnsView st' id c.turns.length =
        some (c.turns, c.turns.length + 2 * ops.length)) := by
  constructor
  · intro st id u now st' r c h hc
    obtain ⟨c0, hc0, _, hr, _⟩ := webcall_input_ok h
    have hcc : c0 = c := Option.some.inj (hc0.symm.trans hc)
    subst hcc
    rw [input_step_turns h hc]
    subst hr
    rfl
  · intro ops
    induction ops with
    | nil =>
      intro st st' id c hrun hc
      have hst : st = st' := Option.some.inj hrun
      subst hst
      unfold turnsView
      rw [hc]
      simp
    | cons p rest ih =>
      intro st st' id c hrun hc
      obtain ⟨u, now⟩ := p
      unfold runInputs at hrun
      cases hstep : webcall_input st id u now with
      | error e =>
        rw [hstep] at hrun
        exact Option.noConfusion hrun
      | ok pr =>
        obtain ⟨st1, r⟩ := pr
        rw [hstep] at hrun
        have hlk1 := input_step_turns hstep hc
        have hIH := ih st1 st' id _ hrun hlk1
        set c1 := applyInput u now
          (get_simulated_response c.fsm_state u c.language) c with hc1
        have hturns : c1.turns = c.turns ++
            [{ timestamp := now, speaker := Speaker.user, text := u,
               fsm_state := c.fsm_state },
             { timestamp := now, speaker := Speaker.aira,
               text := (get_simulated_response c.fsm_state u c.language).1,
               fsm_state := (get_simulated_response c.fsm_state u c.language).2.1 }] := rfl
      -- unpack the IH on the run from st1
        unfold turnsView at hIH ⊢
        cases hlk' : lookupCall st' id with
        | none =>
          rw [hlk'] at hIH
          exact Option.noConfusion hIH
        | some c' =>
          rw [hlk'] at hIH
          have hpair := Option.some.inj hIH
          have htake : c'.turns.take c1.turns.length = c1.turns :=
            congrArg Prod.fst hpair
          have hlen : c'.turns.length = c1.turns.length + 2 * rest.length :=
            congrArg Prod.snd hpair
          have hlen1 : c1.turns.length = c.turns.length + 2 := by
            rw [hturns]
            simp
          rw [Option.map_some']
          congr 1
          refine Prod.ext ?_ ?_
          · show c'.turns.take c.turns.length = c.turns
            have h1 : c'.turns.take c.turns.length =
                (c'.turns.take c1.turns.length).take c.turns.length := by
              rw [List.take_take]
              congr 1
              omega
            rw [h1, htake, hturns]
            simp
          · show c'.turns.length = c.turns.length + 2 * (rest.length + 1)
            omega

/-- Response of the first scenario input, used by the C6 witness. -/
def c6resp : InputResponse :=
  { aira_response := "Perfect! I\x27ve scheduled your demo. You\x27ll receive a confirmation email shortly. Is there anything else I can help you with?",
    fsm_state := FSMState.confirmation,
    is_final := false }

/-- C6 witness: on the freshly started call, one successful input
appends exactly the user turn (tagged `greeting`) and the agent turn
(tagged `confirmation`), and two successful inputs bring the turn count
from 1 to 1 + 2·2 = 5 with the original turn intact. -/
theorem webcall_input_appends_turns_witness :
    webcall_input e2e_st1 0 "I am interested in a demo" 2 =
      Except.ok (e2e_st2, c6resp)
    ∧ lookupCall e2e_st1 0 = some c10call
    ∧ (lookupCall e2e_st2 0).map Call.turns =
        some (c10call.turns ++
          [{ timestamp := 2, speaker := Speaker.user,
             text := "I am interested in a demo", fsm_state := c10call.fsm_state },
           { timestamp := 2, speaker := Speaker.aira,
             text := c6resp.aira_response, fsm_state := c6resp.fsm_state }])
    ∧ runInputs e2e_st1 0 [("I am interested in a demo", 2), ("yes please", 3)]
        = some e2e_st3
    ∧ turnsView e2e_st3 0 c10call.turns.length =
        some (c10call.turns, c10call.turns.length + 2 * 2) :=
  ⟨by rfl, by rfl,
    webcall_input_appends_turns.1 e2e_st1 0 "I am interested in a demo" 2
      e2e_st2 c6resp c10call (by rfl) (by rfl),
    by rfl,
    webcall_input_appends_turns.2
      [("I am interested in a demo", 2), ("yes please", 3)]
      e2e_st1 e2e_st3 0 c10call (by rfl) (by rfl)⟩

/-! ### C7 — completion, end time and exit reason -/

theorem stepOp_start_def (st : Engine) (lang : Language) (tm : Bool) (now : Nat) :
    stepOp st (Op.start lang tm now) = (webcall_start st lang tm now).1 := rfl

theorem stepOp_input_def (st : Engine) (id : Nat) (u : String) (now : Nat) :
    stepOp st (Op.input id u now) =
      (match webcall_input st id u now with
       | Except.ok (st', _) => st'
       | Except.error _ => st) := rfl

theorem stepOp_end_def (st : Engine) (id now : Nat) :
    stepOp st (Op.endCall id now) =
      (match webcall_end st id now with
       | Except.ok st' => st'
       | Except.error _ => st) := rfl

theorem webcall_end_ok {st : Engine} {id now : Nat} {st' : Engine}
    (h : webcall_end st id now = Except.ok st') :
    ∃ c, lookupCall st id = some c ∧ c.status = CallStatus.active
      ∧ st' = { st with calls := kmap st.calls id (endWrite now) } := by
  unfold webcall_end at h
  cases hc : lookupCall st id with
  | none =>
    simp only [hc] at h
    exact Except.noConfusion h
  | some c =>
    simp only [hc] at h
    by_cases hs : c.status = CallStatus.active
    · rw [if_pos hs] at h
      exact ⟨c, rfl, hs, (Except.ok.inj h).symm⟩
    · rw [if_neg hs] at h
      exact Except.noConfusion h

/-- `op` is a successful `submitInput` on `id` whose response carries
`isFinal = true`, against the engine `st`. -/
def isFinalInput (st : Engine) (op : Op) (id : Nat) : Bool :=
  match op with
  | Op.input id' u now =>
    id' == id &&
      (match webcall_input st id' u now with
       | Except.ok (_, r) => r.is_final
       | Except.error _ => false)
  | _ => false

/-- `op` is a successful `end` on `id` against the engine `st`. -/
def isEndSucc (st : Engine) (op : Op) (id : Nat) : Bool :=
  match op with
  | Op.endCall id' now =>
    id' == id &&
      (match webcall_end st id' now with
       | Except.ok _ => true
       | Except.error _ => false)
  | _ => false

/-- Some operation of the sequence is a successful final input on `id`
(at the engine it executes against). -/
def finalAlong : Engine → List Op → Nat → Bool
  | _, [], _ => false
  | st, op :: ops, id =>
    isFinalInput st op id || finalAlong (stepOp st op) ops id

/-- Some operation of the sequence is a successful `end` on `id` (at
the engine it executes against). -/
def endAlong : Engine → List Op → Nat → Bool
  | _, [], _ => false
  | st, op :: ops, id =>
    isEndSucc st op id || endAlong (stepOp st op) ops id

/-- The per-record invariant: an active call has no end time and no
exit reason; otherwise the call is completed with an end time and exit
reason `completed` or `user_hangup`. -/
def Shape (c : Call) : Prop :=
  (c.status = CallStatus.active ∧ c.end_time = none ∧ c.exit_reason = none)
  ∨ (c.status = CallStatus.completed ∧ c.end_time ≠ none
      ∧ (c.exit_reason = some ExitReason.completed
        ∨ c.exit_reason = some ExitReason.user_hangup))

/-- Every stored call satisfies `Shape`. -/
def Inv (st : Engine) : Prop := ∀ x ∈ st.calls, Shape x.2

theorem Shape_applyInput (u : String) (now : Nat) (rsp : String × FSMState × Bool)
    (cc : Call) (hs : Shape cc) : Shape (applyInput u now rsp cc) := by
  by_cases hf : rsp.2.2 = true
  · right
    refine ⟨by simp [applyInput, hf], by simp [applyInput, hf], Or.inl (by simp [applyInput, hf])⟩
  · simp only [Bool.not_eq_true] at hf
    have h1 : (applyInput u now rsp cc).status = cc.status := by simp [applyInput, hf]
    have h2 : (applyInput u now rsp cc).end_time = cc.end_time := by simp [applyInput, hf]
    have h3 : (applyInput u now rsp cc).exit_reason = cc.exit_reason := by simp [applyInput, hf]
    unfold Shape
    rw [h1, h2, h3]
    exact hs

theorem Inv_step (st : Engine) (op : Op) (hi : Inv st) : Inv (stepOp st op) := by
  cases op with
  | start lang tm now =>
    rw [stepOp_start_def]
    intro x hx
    rcases List.mem_append.mp hx with hl | hr
    · exact hi x hl
    · simp only [List.mem_singleton] at hr
      subst hr
      left
      exact ⟨rfl, rfl, rfl⟩
  | input id u now =>
    rw [stepOp_input_def]
    cases hres : webcall_input st id u now with
    | error e => exact hi
    | ok pr =>
      obtain ⟨st1, r⟩ := pr
      obtain ⟨c0, hc0, hact, hr, hst⟩ := webcall_input_ok hres
      subst hst
      intro x hx
      obtain ⟨y, hy, hyx⟩ := List.mem_map.mp hx
      subst hyx
      by_cases hk : y.1 = id
      · simp only [hk, if_true]
        exact Shape_applyInput u now _ y.2 (hi y hy)
      · simp only [hk, if_false]
        exact hi y hy
  | endCall id now =>
    rw [stepOp_end_def]
    cases hres : webcall_end st id now with
    | error e => exact hi
    | ok st1 =>
      obtain ⟨c0, hc0, hact, hst⟩ := webcall_end_ok hres
      subst hst
      intro x hx
      obtain ⟨y, hy, hyx⟩ := List.mem_map.mp hx
      subst hyx
      by_cases hk : y.1 = id
      · simp only [hk, if_true]
        right
        exact ⟨rfl, by simp [endWrite], Or.inr rfl⟩
      · simp only [hk, if_false]
        exact hi y hy

theorem Inv_run (st : Engine) (ops : List Op) (hi : Inv st) :
    Inv (runOps st ops) := by
  induction ops generalizing st with
  | nil => exact hi
  | cons op ops ih => exact ih (stepOp st op) (Inv_step st op hi)

theorem frozen_step (st : Engine) (op : Op) {id : Nat} {c : Call}
    (hc : lookupCall st id = some c)
    (hdone : c.status = CallStatus.completed) :
    lookupCall (stepOp st op) id = some c := by
  cases op with
  | start lang tm now =>
    rw [stepOp_start_def]
    show alookup (st.calls ++ _) id = some c
    unfold alookup
    rw [afind_append_left _ (afind_of_alookup hc)]
    rfl
  | input id' u now =>
    rw [stepOp_input_def]
    cases hres : webcall_input st id' u now with
    | error e => exact hc
    | ok pr =>
      obtain ⟨st1, r⟩ := pr
      obtain ⟨c0, hc0, hact, hr, hst⟩ := webcall_input_ok hres
      subst hst
      by_cases hk : id' = id
      · subst hk
        have : c0 = c := Option.some.inj (hc0.symm.trans hc)
        subst this
        rw [hact] at hdone
        exact absurd hdone (by simp)
      · show alookup (kmap st.calls id' _) id = some c
        rw [alookup_kmap_other st.calls id' id _ (fun hcontra => hk hcontra.symm)]
        exact hc
  | endCall id' now =>
    rw [stepOp_end_def]
    cases hres : webcall_end st id' now with
    | error e => exact hc
    | ok st1 =>
      obtain ⟨c0, hc0, hact, hst⟩ := webcall_end_ok hres
      subst hst
      by_cases hk : id' = id
      · subst hk
        have : c0 = c := Option.some.inj (hc0.symm.trans hc)
        subst this
        rw [hact] at hdone
        exact absurd hdone (by simp)
      · show alookup (kmap st.calls id' _) id = some c
        rw [alookup_kmap_other st.calls id' id _ (fun hcontra => hk hcontra.symm)]
        exact hc

theorem final_step_completes (st : Engine) (op : Op) (id : Nat)
    (hf : isFinalInput st op id = true) :
    ∃ c', lookupCall (stepOp st op) id = some c'
      ∧ c'.status = CallStatus.completed
      ∧ c'.exit_reason = some ExitReason.completed := by
  cases op with
  | start lang tm now => simp [isFinalInput] at hf
  | endCall id' now => simp [isFinalInput] at hf
  | input id' u now =>
    unfold isFinalInput at hf
    have hsplit : (id' == id) = true ∧
        (match webcall_input st id' u now with
         | Except.ok (_, r) => r.is_final
         | Except.error _ => false) = true := by simpa using hf
    have hk : id' = id := by simpa using hsplit.1
    subst hk
    cases hres : webcall_input st id' u now with
    | error e =>
      rw [hres] at hsplit
      simp at hsplit
    | ok pr =>
      obtain ⟨st1, r⟩ := pr
      have hfin : r.is_final = true := by
        have := hsplit.2
        rw [hres] at this
        exact this
      obtain ⟨c0, hc0, hact, hr, hst⟩ := webcall_input_ok hres
      have hfin' : (get_simulated_response c0.fsm_state u c0.language).2.2 = true := by
        rw [hr] at hfin
        exact hfin
      refine ⟨applyInput u now (get_simulated_response c0.fsm_state u c0.language) c0,
        ?_, ?_, ?_⟩
      · rw [stepOp_input_def, hres]
        subst hst
        show alookup (kmap st.calls id' _) id' = _
        rw [alookup_kmap_self]
        have hc' : alookup st.calls id' = some c0 := hc0
        rw [hc']
        rfl
      · simp [applyInput, hfin']
      · simp [applyInput, hfin']

theorem end_step_completes (st : Engine) (op : Op) (id : Nat)
    (he : isEndSucc st op id = true) :
    ∃ c', lookupCall (stepOp st op) id = some c'
      ∧ c'.status = CallStatus.completed
      ∧ c'.exit_reason = some ExitReason.user_hangup := by
  cases op with
  | start lang tm now => simp [isEndSucc] at he
  | input id' u now => simp [isEndSucc] at he
  | endCall id' now =>
    unfold isEndSucc at he
    have hsplit : (id' == id) = true ∧
        (match webcall_end st id' now with
         | Except.ok _ => true
         | Except.error _ => false) = true := by simpa using he
    have hk : id' = id := by simpa using hsplit.1
    subst hk
    cases hres : webcall_end st id' now with
    | error e =>
      rw [hres] at hsplit
      simp at hsplit
    | ok st1 =>
      obtain ⟨c0, hc0, hact, hst⟩ := webcall_end_ok hres
      refine ⟨endWrite now c0, ?_, rfl, rfl⟩
      rw [stepOp_end_def, hres]
      subst hst
      show alookup (kmap st.calls id' _) id' = _
      rw [alookup_kmap_self]
      have hc' : alookup st.calls id' = some c0 := hc0
      rw [hc']
      rfl

theorem completed_step_cases (st : Engine) (op : Op) (id : Nat) {c' : Call}
    (hl : lookupCall (stepOp st op) id = some c')
    (hdone : c'.status = CallStatus.completed) :
    (∃ c0, lookupCall st id = some c0
      ∧ c0.status = CallStatus.completed ∧ c' = c0)
    ∨ isFinalInput st op id = true ∨ isEndSucc st op id = true := by
  cases op with
  | start lang tm now =>
    rw [stepOp_start_def] at hl
    have hl2 : alookup (st.calls ++ [(st.nextId, startCall st lang tm now)]) id
        = some c' := hl
    cases haf : afind st.calls id with
    | some x =>
      have hl' : lookupCall st id = some x.2 := by
        unfold lookupCall alookup
        rw [haf]
        rfl
      have hx : alookup (st.calls ++ [(st.nextId, startCall st lang tm now)]) id
          = some x.2 := by
        unfold alookup
        rw [afind_append_left _ haf]
        rfl
      have hcx : c' = x.2 := (Option.some.inj (hx.symm.trans hl2)).symm
      exact Or.inl ⟨x.2, hl', hcx ▸ hdone, hcx⟩
    | none =>
      have hx : alookup (st.calls ++ [(st.nextId, startCall st lang tm now)]) id
          = alookup [(st.nextId, startCall st lang tm now)] id := by
        unfold alookup
        rw [afind_append_right _ haf]
      rw [hx] at hl2
      by_cases hn : st.nextId = id
      · have hsing : alookup [(st.nextId, startCall st lang tm now)] id
            = some (startCall st lang tm now) := by
          unfold alookup afind
          rw [if_pos hn]
          rfl
        rw [hsing] at hl2
        have := (Option.some.inj hl2).symm
        rw [this] at hdone
        exact absurd hdone (by simp [startCall])
      · have hsing : alookup [(st.nextId, startCall st lang tm now)] id
            = none := by
          unfold alookup afind
          rw [if_neg hn]
          rfl
        rw [hsing] at hl2
        exact Option.noConfusion hl2
  | input id' u now =>
    rw [stepOp_input_def] at hl
    cases hres : webcall_input st id' u now with
    | error e =>
      rw [hres] at hl
      exact Or.inl ⟨c', hl, hdone, rfl⟩
    | ok pr =>
      obtain ⟨st1, r⟩ := pr
      rw [hres] at hl
      obtain ⟨c0, hc0, hact, hr, hst⟩ := webcall_input_ok hres
      by_cases hk : id' = id
      · subst hk
        subst hst
        have hl2 : alookup (kmap st.calls id' (applyInput u now
            (get_simulated_response c0.fsm_state u c0.language))) id' =
            (alookup st.calls id').map
              (applyInput u now (get_simulated_response c0.fsm_state u c0.language)) :=
          alookup_kmap_self _ _ _
        have hc0' : alookup st.calls id' = some c0 := hc0
        rw [hc0'] at hl2
        have hl3 : c' = applyInput u now
            (get_simulated_response c0.fsm_state u c0.language) c0 := by
          have hthis : lookupCall { st with calls := (kmap st.calls id'
              (applyInput u now (get_simulated_response c0.fsm_state u c0.language))) } id' =
              some (applyInput u now
                (get_simulated_response c0.fsm_state u c0.language) c0) := by
            show alookup _ _ = _
            rw [hl2]
            rfl
          exact (Option.some.inj (hthis.symm.trans hl)).symm
        by_cases hfin : (get_simulated_response c0.fsm_state u c0.language).2.2 = true
        · refine Or.inr (Or.inl ?_)
          show ((id' == id') &&
            (match webcall_input st id' u now with
             | Except.ok (_, r) => r.is_final
             | Except.error _ => false)) = true
          rw [hres]
          simp [hr, hfin]
        · exfalso
          simp only [Bool.not_eq_true] at hfin
          have : c'.status = c0.status := by
            rw [hl3]
            simp [applyInput, hfin]
          rw [hdone, hact] at this
          exact absurd this (by simp)
      · subst hst
        have hother : lookupCall { st with calls := (kmap st.calls id'
            (applyInput u now (get_simulated_response c0.fsm_state u c0.language))) } id =
            lookupCall st id := by
          show alookup _ _ = _
          exact alookup_kmap_other st.calls id' id _ (fun hcontra => hk hcontra.symm)
        rw [hother] at hl
        exact Or.inl ⟨c', hl, hdone, rfl⟩
  | endCall id' now =>
    rw [stepOp_end_def] at hl
    cases hres : webcall_end st id' now with
    | error e =>
      rw [hres] at hl
      exact Or.inl ⟨c', hl, hdone, rfl⟩
    | ok st1 =>
      rw [hres] at hl
      obtain ⟨c0, hc0, hact, hst⟩ := webcall_end_ok hres
      by_cases hk : id' = id
      · subst hk
        refine Or.inr (Or.inr ?_)
        show ((id' == id') &&
          (match webcall_end st id' now with
           | Except.ok _ => true
           | Except.error _ => false)) = true
        rw [hres]
        simp
      · subst hst
        have hother : lookupCall { st with calls := kmap st.calls id' (endWrite now) } id =
            lookupCall st id := by
          show alookup _ _ = _
          exact alookup_kmap_other st.calls id' id _ (fun hcontra => hk hcontra.symm)
        rw [hother] at hl
        exact Or.inl ⟨c', hl, hdone, rfl⟩

theorem finalAlong_cons (st : Engine) (op : Op) (ops : List Op) (id : Nat) :
    finalAlong st (op :: ops) id =
      (isFinalInput st op id || finalAlong (stepOp st op) ops id) := rfl

theorem endAlong_cons (st : Engine) (op : Op) (ops : List Op) (id : Nat) :
    endAlong st (op :: ops) id =
      (isEndSucc st op id || endAlong (stepOp st op) ops id) := rfl

theorem finalAlong_nil (st : Engine) (id : Nat) :
    finalAlong st [] id = false := rfl

theorem endAlong_nil (st : Engine) (id : Nat) :
    endAlong st [] id = false := rfl

/-- The call already exists and is already completed in `st`. -/
def preC (st : Engine) (id : Nat) : Prop :=
  ∃ c0, lookupCall st id = some c0 ∧ c0.status = CallStatus.completed

set_option maxHeartbeats 2000000 in
theorem run_status_aux (ops : List Op) :
    ∀ (st : Engine) (id : Nat) (c : Call),
      lookupCall (runOps st ops) id = some c →
      ((c.status = CallStatus.completed ↔
          (preC st id ∨ finalAlong st ops id = true ∨ endAlong st ops id = true))
        ∧ (∀ c0, lookupCall st id = some c0 →
            c0.status = CallStatus.completed → c = c0)
        ∧ (finalAlong st ops id = true → c.exit_reason = some ExitReason.completed)
        ∧ (endAlong st ops id = true →
            c.exit_reason = some ExitReason.user_hangup)) := by
  induction ops with
  | nil =>
    intro st id c hl
    simp only [runOps] at hl
    refine ⟨?_, ?_, ?_, ?_⟩
    · simp only [finalAlong_nil, endAlong_nil]
      constructor
      · intro h
        exact Or.inl ⟨c, hl, h⟩
      · rintro (⟨c0, hc0, h0⟩ | h | h)
        · have : c0 = c := Option.some.inj (hc0.symm.trans hl)
          exact this ▸ h0
        · exact absurd h (by simp)
        · exact absurd h (by simp)
    · intro c0 h0 _
      exact Option.some.inj (hl.symm.trans h0)
    · intro h
      exact absurd h (by simp [finalAlong_nil])
    · intro h
      exact absurd h (by simp [endAlong_nil])
  | cons op ops ih =>
    intro st id c hl
    simp only [runOps] at hl
    have IH := ih (stepOp st op) id c hl
    have hpre : preC (stepOp st op) id ↔
        (preC st id ∨ isFinalInput st op id = true ∨ isEndSucc st op id = true) := by
      constructor
      · rintro ⟨c1, hc1, hdone⟩
        rcases completed_step_cases st op id hc1 hdone with ⟨c0, h1, h2, _⟩ | h | h
        · exact Or.inl ⟨c0, h1, h2⟩
        · exact Or.inr (Or.inl h)
        · exact Or.inr (Or.inr h)
      · rintro (⟨c0, hc0, h0⟩ | h | h)
        · exact ⟨c0, frozen_step st op hc0 h0, h0⟩
        · obtain ⟨c1, h1, h2, _⟩ := final_step_completes st op id h
          exact ⟨c1, h1, h2⟩
        · obtain ⟨c1, h1, h2, _⟩ := end_step_completes st op id h
          exact ⟨c1, h1, h2⟩
    refine ⟨?_, ?_, ?_, ?_⟩
    · rw [IH.1]
      rw [finalAlong_cons, endAlong_cons, hpre]
      simp only [Bool.or_eq_true]
      tauto
    · intro c0 h0 hdone
      exact IH.2.1 c0 (frozen_step st op h0 hdone) hdone
    · intro h
      rw [finalAlong_cons] at h
      simp only [Bool.or_eq_true] at h
      rcases h with h | h
      · obtain ⟨c1, h1, h2, h3⟩ := final_step_completes st op id h
        have hcc := IH.2.1 c1 h1 h2
        rw [hcc]
        exact h3
      · exact IH.2.2.1 h
    · intro h
      rw [endAlong_cons] at h
      simp only [Bool.or_eq_true] at h
      rcases h with h | h
      · obtain ⟨c1, h1, h2, h3⟩ := end_step_completes st op id h
        have hcc := IH.2.1 c1 h1 h2
        rw [hcc]
        exact h3
      · exact IH.2.2.2 h

/-- C7: for every operation sequence from the empty engine and every
stored call, `end_time` and `exit_reason` are non-null exactly when the
status is not `active`; and the status is `completed` (with those
fields stamped) exactly when some prior `submitInput` on the call
returned `isFinal = true` — in which case the exit reason is
`completed` — or `end` was called on it — in which case the exit reason
is `user_hangup`. -/
theorem call_exit_status_iff :
    ∀ (ops : List Op) (id : Nat) (c : Call),
      lookupCall (runOps engine0 ops) id = some c →
      ((c.end_time ≠ none ∧ c.exit_reason ≠ none) ↔ c.status ≠ CallStatus.active)
      ∧ (c.status = CallStatus.completed ↔
          (finalAlong engine0 ops id = true ∨ endAlong engine0 ops id = true))
      ∧ (finalAlong engine0 ops id = true →
          c.exit_reason = some ExitReason.completed)
      ∧ (endAlong engine0 ops id = true →
          c.exit_reason = some ExitReason.user_hangup) := by
  intro ops id c hl
  have hShape : Shape c := by
    have hinv := Inv_run engine0 ops (by intro x hx; simp [engine0] at hx)
    exact hinv (id, c) (afind_mem (afind_of_alookup hl))
  have haux := run_status_aux ops engine0 id c hl
  have hpre0 : ¬ preC engine0 id := by
    rintro ⟨c0, hc0, _⟩
    simp [lookupCall, alookup, afind, engine0] at hc0
  refine ⟨?_, ?_, haux.2.2.1, haux.2.2.2⟩
  · rcases hShape with ⟨h1, h2, h3⟩ | ⟨h1, h2, h3⟩
    · constructor
      · rintro ⟨he, _⟩
        exact absurd h2 he
      · intro hne
        exact absurd h1 hne
    · constructor
      · intro _
        rw [h1]
        simp
      · intro _
        refine ⟨h2, ?_⟩
        rcases h3 with h | h <;> simp [h]
  · rw [haux.1]
    constructor
    · rintro (h | h | h)
      · exact absurd h hpre0
      · exact Or.inl h
      · exact Or.inr h
    · rintro (h | h)
      · exact Or.inr (Or.inl h)
      · exact Or.inr (Or.inr h)

/-- The two operations of the C7 witness scenario: start an English
call, then hang it up at instant 7. -/
def c7ops : List Op := [Op.start Language.en true 1, Op.endCall 0 7]

/-- The stored record of call 0 after the C7 witness scenario. -/
def c7call : Call :=
  { c10call with
    status := CallStatus.completed
    end_time := some 7
    exit_reason := some ExitReason.user_hangup }

/-- C7 witness: after start-then-end, call 0 is completed with its end
time and exit reason `user_hangup` stamped; the characterization
instantiates to this concrete run. -/
theorem call_exit_status_iff_witness :
    lookupCall (runOps engine0 c7ops) 0 = some c7call
    ∧ (((c7call.end_time ≠ none ∧ c7call.exit_reason ≠ none) ↔
          c7call.status ≠ CallStatus.active)
      ∧ (c7call.status = CallStatus.completed ↔
          (finalAlong engine0 c7ops 0 = true ∨ endAlong engine0 c7ops 0 = true))
      ∧ (finalAlong engine0 c7ops 0 = true →
          c7call.exit_reason = some ExitReason.completed)
      ∧ (endAlong engine0 c7ops 0 = true →
          c7call.exit_reason = some ExitReason.user_hangup)) :=
  ⟨by rfl, call_exit_status_iff c7ops 0 c7call (by rfl)⟩

end Aira
